import Mathlib

/-!
# couponcode: checksum-bearing coupon codes

A shallow embedding of `couponcode.go`.

* A Go `string` is a `List Char`: the list of its code points.  Every string the
  program slices or measures has been stripped to `0-9A-Z` first, or is assumed to
  consist of alphabet symbols, so byte offsets and code point offsets agree.
* A Go `int` is an `Int`; the one place where arithmetic can leave the 64-bit range
  on an input of realistic size (`check*19 + k` in `checkCharacter`) is wrapped
  explicitly with `wrapInt`.  Loop counters are bounded by a slice length, so `i+1`
  is not wrapped, and neither is `g.partLen - 1`.
* A call that panics or does not return is `none`.
* `randString` and `hasBadWord` are defined in another file of the package; they are
  parameters of `Generate`.
-/

namespace Couponcode

/-! ## Data model -/

/-- Generator configures and generates coupon codes (`type Generator struct`). -/
structure Generator where
  parts : Int
  partLen : Int
deriving DecidableEq, Repr

/-- The alphabet `symbols = "0123456789ABCDEFGHJKLMNPQRTUVWXY"`. -/
def symbols : List Char :=
  ['0', '1', '2', '3', '4', '5', '6', '7', '8', '9',
   'A', 'B', 'C', 'D', 'E', 'F', 'G', 'H', 'J', 'K', 'L', 'M', 'N',
   'P', 'Q', 'R', 'T', 'U', 'V', 'W', 'X', 'Y']

/-- The modulus `length = len(symbols) - 1`. -/
def length : Int := (symbols.length : Int) - 1

/-- The separator `"-"`. -/
def separator : List Char := ['-']

/-- New makes a new generator; it stores its two arguments and cannot fail. -/
def New (parts partLen : Int) : Generator :=
  { parts := parts, partLen := partLen }

/-- Default is the configuration of 2 parts of 4 characters. -/
def Default : Generator := New 2 4

/-- The three errors `Validate` builds with `fmt.Errorf`, with the values it formats:
`"wrong number of parts (%d)"`, `"wrong length of part %d"` and
`"wrong part %d (%s) check character %s"`. -/
inductive ValidateError where
  | wrongPartCount (n : Nat)
  | wrongPartLength (i : Nat)
  | wrongCheckCharacter (i : Nat) (part : List Char) (check : List Char)
deriving DecidableEq, Repr

/-! ## Machine arithmetic and library functions -/

/-- Two's complement wrap-around of a 64-bit signed `int`. -/
def wrapInt (x : Int) : Int := (x + 2 ^ 63) % 2 ^ 64 - 2 ^ 63

/-- The function `strings.IndexRune`: index of the first occurrence, `-1` when absent. -/
def IndexRune (s : List Char) (r : Char) : Int :=
  if r ∈ s then (s.indexOf r : Int) else -1

/-- The function `unicode.ToUpper` on the code points that it maps into `0-9A-Z`
(the ASCII lower-case letters, U+0131 and U+017F) and on all of ASCII; any other
code point is left as it is, which `removeInvalid` deletes either way. -/
def toUpperRune (c : Char) : Char :=
  match c with
  | 'a' => 'A' | 'b' => 'B' | 'c' => 'C' | 'd' => 'D' | 'e' => 'E' | 'f' => 'F'
  | 'g' => 'G' | 'h' => 'H' | 'i' => 'I' | 'j' => 'J' | 'k' => 'K' | 'l' => 'L'
  | 'm' => 'M' | 'n' => 'N' | 'o' => 'O' | 'p' => 'P' | 'q' => 'Q' | 'r' => 'R'
  | 's' => 'S' | 't' => 'T' | 'u' => 'U' | 'v' => 'V' | 'w' => 'W' | 'x' => 'X'
  | 'y' => 'Y' | 'z' => 'Z'
  | 'ı' => 'I'
  | 'ſ' => 'S'
  | c => c

/-- The function `strings.ToUpper`. -/
def ToUpper (s : List Char) : List Char := s.map toUpperRune

/-- The characters the class `[0-9A-Z]` accepts. -/
def isValidChar (c : Char) : Bool :=
  ('0' ≤ c && c ≤ '9') || ('A' ≤ c && c ≤ 'Z')

/-- The call `removeInvalidRe.ReplaceAllLiteralString(code, "")` with
`removeInvalidRe = [^0-9A-Z]+`: every run of other characters is deleted. -/
def removeInvalid (code : List Char) : List Char := code.filter isValidChar

/-- The call `strings.Replace(s, old, new, -1)` for one-character `old` and `new`. -/
def Replace (s : List Char) (old new : Char) : List Char :=
  s.map (fun c => if c = old then new else c)

/-- The function `strings.Join`. -/
def Join : List (List Char) → List Char → List Char
  | [], _ => []
  | [a], _ => a
  | a :: b :: rest, sep => a ++ sep ++ Join (b :: rest) sep

/-- The function `strings.HasSuffix`. -/
def HasSuffix (s suffix : List Char) : Bool := suffix.isSuffixOf s

/-! ## The checksum -/

/-- The loop of `checkCharacter`: `check = check*19 + k` for each rune, in 64 bits. -/
def checkAccumulate (code : List Char) (check : Int) : Int :=
  code.foldl (fun check r => wrapInt (check * 19 + IndexRune symbols r)) check

/-- The function `checkCharacter`: `string(symbols[check%int(length)])`, where `%`
truncates towards zero and a negative index panics. -/
def checkCharacter (code : List Char) (check : Int) : Option (List Char) :=
  let check := checkAccumulate code check
  let i := Int.tmod check length
  if 0 ≤ i then (symbols.get? i.toNat).map (fun b => [b]) else none

/-! ## Validation -/

/-- Lines 63 to 72 of `Validate`: upper-case, strip, then the four replacements. -/
def normalise (code : List Char) : List Char :=
  let code := ToUpper code
  let code := removeInvalid code
  let code := Replace code 'O' '0'
  let code := Replace code 'I' '1'
  let code := Replace code 'Z' '2'
  let code := Replace code 'S' '5'
  code

/-- The loop `for len(tmp) > 0` of `Validate`, run for at most `fuel` iterations.
A negative `max` makes `tmp[:max]` panic; with `partLen = 0` the loop never ends and
the fuel runs out. -/
def splitLoop (partLen : Int) : Nat → List Char → List (List Char) → Option (List (List Char))
  | _, [], parts => some parts
  | 0, _ :: _, _ => none
  | fuel + 1, c :: cs, parts =>
    let tmp := c :: cs
    let max : Int := if partLen > (tmp.length : Int) then (tmp.length : Int) else partLen
    if max < 0 then none
    else splitLoop partLen fuel (tmp.drop max.toNat) (parts ++ [tmp.take max.toNat])

/-- The loop `for i, part := range parts` of `Validate`, entered at index `i`.
The slice `part[:len(part)-1]` panics on an empty part. -/
def checkParts (g : Generator) (code : List Char) :
    Nat → List (List Char) → Option (List Char × Option ValidateError)
  | _, [] => some (code, none)
  | i, part :: rest =>
    if (part.length : Int) ≠ g.partLen then
      some (code, some (ValidateError.wrongPartLength i))
    else if part.length = 0 then none
    else
      match checkCharacter (part.take (part.length - 1)) ((i : Int) + 1) with
      | none => none
      | some check =>
        if !HasSuffix part check then
          some (code, some (ValidateError.wrongCheckCharacter (i + 1) part check))
        else checkParts g code (i + 1) rest

/-- Lines 75 to 102 of `Validate`, on the normalised string.  The split loop is given
`len(code)` iterations: every iteration that neither panics nor stalls removes at least
one character, so this is enough whenever the loop of the source ends. -/
def validateFlat (g : Generator) (code : List Char) : Option (List Char × Option ValidateError) :=
  match splitLoop g.partLen code.length code [] with
  | none => none
  | some parts =>
    let code := Join parts separator
    if (parts.length : Int) ≠ g.parts then
      some (code, some (ValidateError.wrongPartCount parts.length))
    else checkParts g code 0 parts

/-- Validate normalizes and validates a coupon code (`Generator.Validate`). -/
def Validate (g : Generator) (code : List Char) : Option (List Char × Option ValidateError) :=
  validateFlat g (normalise code)

/-! ## Generation -/

/-- The loop `for i < g.parts` of `Generate`, run for at most `fuel` iterations.
`randString k n` is the string the `k`-th call of `randString` returns for argument
`n`; the state is the number `k` of calls made, the index `i` and the slice `parts`.
The loop is entered with `len(parts) = g.parts`, so `parts[i]` is in range under the
loop condition. -/
def generateLoop (g : Generator) (randString : Nat → Int → List Char)
    (hasBadWord : List Char → Bool) :
    Nat → Nat → Nat → List (List Char) → Option (List (List Char))
  | 0, _, i, parts => if (i : Int) < g.parts then none else some parts
  | fuel + 1, k, i, parts =>
    if (i : Int) < g.parts then
      let code := randString k (g.partLen - 1)
      match checkCharacter code ((i : Int) + 1) with
      | none => none
      | some check =>
        let parts := parts.set i (code ++ check)
        if !hasBadWord (Join parts []) then
          generateLoop g randString hasBadWord fuel (k + 1) (i + 1) parts
        else generateLoop g randString hasBadWord fuel (k + 1) i parts
    else some parts

/-- The slice `parts` when `Generate` leaves its loop; `make([]string, g.parts)`
panics on a negative length. -/
def generateParts (g : Generator) (randString : Nat → Int → List Char)
    (hasBadWord : List Char → Bool) (fuel : Nat) : Option (List (List Char)) :=
  if g.parts < 0 then none
  else generateLoop g randString hasBadWord fuel 0 0 (List.replicate g.parts.toNat [])

/-- Generate generates a coupon code (`Generator.Generate`), within `fuel` draws. -/
def Generate (g : Generator) (randString : Nat → Int → List Char)
    (hasBadWord : List Char → Bool) (fuel : Nat) : Option (List Char) :=
  (generateParts g randString hasBadWord fuel).map (fun parts => Join parts separator)

/-! ## Chunks of a string (used to state what `Validate` computes) -/

/-- The `k`-th chunk of `p` characters of a string (`k` counted from 0). -/
def chunk (p : Nat) (flat : List Char) (k : Nat) : List Char := (flat.drop (k * p)).take p

/-- All chunks of `p` characters of a string, the last one possibly shorter. -/
def chunks (p : Nat) (flat : List Char) : List (List Char) :=
  (List.range ((flat.length + p - 1) / p)).map (chunk p flat)

/-- A part passes both tests of the loop at (0-based) index `i`. -/
def partOk (g : Generator) (i : Nat) (part : List Char) : Prop :=
  (part.length : Int) = g.partLen ∧
    ∃ b, part.getLast? = some b ∧ checkCharacter part.dropLast ((i : Int) + 1) = some [b]

/-- A segment is well formed at (0-based) index `i`: it passes both tests of
`Validate` there and consists of alphabet symbols. -/
def segmentOk (g : Generator) (i : Nat) (seg : List Char) : Prop :=
  partOk g i seg ∧ ∀ c ∈ seg, c ∈ symbols

/-- The assumption on the random source: `randString(n)` returns `n` alphabet symbols. -/
def RandAlphabet (randString : Nat → Int → List Char) : Prop :=
  ∀ (k : Nat) (n : Int), 0 ≤ n →
    ((randString k n).length : Int) = n ∧ ∀ c ∈ randString k n, c ∈ symbols

/-! ## Stand-ins for the random source and the blacklist, for concrete runs -/

/-- A random source whose `k`-th draw repeats the `k`-th alphabet symbol. -/
def repeatRand (k : Nat) (n : Int) : List Char := List.replicate n.toNat (symbols.getD k '0')

/-- A blacklist that rejects every string starting with `0`. -/
def leadingZero (s : List Char) : Bool := s.take 1 == ['0']

/-- An empty blacklist. -/
def noBadWord (_ : List Char) : Bool := false

/-! ## The checksum as the specification words it -/

/-- The reference checksum, in unbounded integers: start from `position`, fold
`acc * 19 + indexOf symbol` over the body, return the symbol at index `acc mod 31`. -/
def referenceCheck (body : List Char) (position : Int) : Option (List Char) :=
  let acc := body.foldl (fun acc r => acc * 19 + IndexRune symbols r) position
  (symbols.get? (acc % 31).toNat).map (fun b => [b])

/-! ## Edits of the input that `Validate` does not see -/

/-- ASCII lower-casing: `A`..`Z` become `a`..`z`, every other character stays. -/
def toLowerASCII (c : Char) : Char :=
  match c with
  | 'A' => 'a' | 'B' => 'b' | 'C' => 'c' | 'D' => 'd' | 'E' => 'e' | 'F' => 'f'
  | 'G' => 'g' | 'H' => 'h' | 'I' => 'i' | 'J' => 'j' | 'K' => 'k' | 'L' => 'l'
  | 'M' => 'm' | 'N' => 'n' | 'O' => 'o' | 'P' => 'p' | 'Q' => 'q' | 'R' => 'r'
  | 'S' => 's' | 'T' => 't' | 'U' => 'u' | 'V' => 'v' | 'W' => 'w' | 'X' => 'x'
  | 'Y' => 'y' | 'Z' => 'z'
  | c => c

/-- An ASCII character that is neither a digit nor a letter: whitespace, punctuation,
control characters. -/
def isAsciiOther (c : Char) : Bool :=
  decide (c.toNat < 128) && !isValidChar c && !('a' ≤ c && c ≤ 'z')

/-- The string `t` comes from `s` by keeping characters, lower-casing ASCII letters,
deleting separators, and putting in ASCII characters that are neither letters nor
digits, in any combination. -/
inductive FormatEdit : List Char → List Char → Prop where
  | done : FormatEdit [] []
  | keep (c : Char) {s t : List Char} : FormatEdit s t → FormatEdit (c :: s) (c :: t)
  | lower (c : Char) {s t : List Char} :
      FormatEdit s t → FormatEdit (c :: s) (toLowerASCII c :: t)
  | unseparate {s t : List Char} : FormatEdit s t → FormatEdit ('-' :: s) t
  | put (p : Char) {s t : List Char} :
      isAsciiOther p = true → FormatEdit s t → FormatEdit s (p :: t)

/-- The digit and letter pairs that normalisation identifies, letters in either case. -/
def confusablePairs : List (Char × Char) :=
  [('0', 'O'), ('0', 'o'), ('1', 'I'), ('1', 'i'), ('2', 'Z'), ('2', 'z'),
   ('5', 'S'), ('5', 's')]

/-- The string `t` comes from `s` by replacing some occurrences of the digits 0, 1, 2, 5
by the letters O, I, Z, S, in either case. -/
inductive Confusable : List Char → List Char → Prop where
  | done : Confusable [] []
  | keep (c : Char) {s t : List Char} : Confusable s t → Confusable (c :: s) (c :: t)
  | swap (d l : Char) {s t : List Char} :
      (d, l) ∈ confusablePairs → Confusable s t → Confusable (d :: s) (l :: t)

/-- A random source that always draws the symbol `0`. -/
def zeroRand (_ : Nat) (n : Int) : List Char := List.replicate n.toNat '0'

/-- The accumulator of the reference checksum, in unbounded integers. -/
def referenceAccumulate (body : List Char) (position : Int) : Int :=
  body.foldl (fun acc r => acc * 19 + IndexRune symbols r) position

/-- Chunk `k` of a string with its character number `j` replaced by `x`. -/
def mutateChunk (p : Nat) (flat : List Char) (k j : Nat) (x : Char) : List Char :=
  (chunk p flat k).set j x

/-- The canonical code of a string (its chunks joined by the separator) after character
number `j` of chunk `k` has been replaced by `x`. -/
def mutateCode (p : Nat) (flat : List Char) (k j : Nat) (x : Char) : List Char :=
  Join ((chunks p flat).set k (mutateChunk p flat k j x)) separator

/-! ## Filter and retry, as the specification words it -/

/-- The candidate segment that draw number `k` gives for index `i`: the drawn body
followed by its check character for position `i + 1`. -/
def candidate (g : Generator) (randString : Nat → Int → List Char) (k i : Nat) :
    Option (List Char) :=
  (checkCharacter (randString k (g.partLen - 1)) ((i : Int) + 1)).map
    (fun check => randString k (g.partLen - 1) ++ check)

/-- The segments `seg :: rest` are those placed at the indices `i`, `i + 1`, ... when
the draws are numbered from `k` and the segments `accepted` are in place: `seg` is the
candidate of the first draw `ka >= k` for which the blacklist accepts the accepted
segments followed by that candidate, every draw from `k` to `ka - 1` gave a candidate
for the same index `i` that the blacklist rejected, and `rest` is placed in the same
way from draw `ka + 1` and index `i + 1` on, after `accepted` and `seg`. -/
def PlacedFrom (g : Generator) (randString : Nat → Int → List Char)
    (hasBadWord : List Char → Bool) : Nat → Nat → List (List Char) → List (List Char) → Prop
  | _, _, _, [] => True
  | k, i, accepted, seg :: rest =>
    ∃ ka, k ≤ ka ∧ candidate g randString ka i = some seg ∧
      hasBadWord (accepted.flatten ++ seg) = false ∧
      (∀ kr, k ≤ kr → kr < ka →
        ∃ rejected, candidate g randString kr i = some rejected ∧
          hasBadWord (accepted.flatten ++ rejected) = true) ∧
      PlacedFrom g randString hasBadWord (ka + 1) (i + 1) (accepted ++ [seg]) rest

/-! # Theorems -/

/-! ## The split loop -/

theorem chunks_nil (p : Nat) : chunks p [] = [] := by
  unfold chunks
  have : ([] : List Char).length + p - 1 = p - 1 := by simp
  rw [this]
  rcases Nat.eq_zero_or_pos p with h | h
  · subst h; simp
  · rw [Nat.div_eq_of_lt (by omega)]; simp

theorem chunks_cons_step (p : Nat) (hp : 1 ≤ p) (tmp : List Char) (h : tmp ≠ []) :
    chunks p tmp = tmp.take p :: chunks p (tmp.drop p) := by
  have hlen : 0 < tmp.length := List.length_pos.mpr h
  unfold chunks
  have hn : (tmp.length + p - 1) / p = ((tmp.drop p).length + p - 1) / p + 1 := by
    rw [List.length_drop]
    by_cases hle : tmp.length ≤ p
    · have h0 : tmp.length - p = 0 := by omega
      rw [h0]
      have h1 : (0 + p - 1) / p = 0 := Nat.div_eq_of_lt (by omega)
      rw [h1]
      have h2 : tmp.length + p - 1 = (tmp.length - 1) + p := by omega
      rw [h2, Nat.add_div_right _ (by omega), Nat.div_eq_of_lt (by omega)]
    · have h2 : tmp.length + p - 1 = (tmp.length - p + p - 1) + p := by omega
      rw [h2, Nat.add_div_right _ (by omega)]
  rw [hn, List.range_succ_eq_map, List.map_cons, List.map_map]
  congr 1
  · simp [chunk]
  · apply List.map_congr_left
    intro k _
    simp only [chunk, Function.comp, List.drop_drop]
    congr 2
    rw [Nat.succ_mul]; omega

theorem splitLoop_eq (partLen : Int) (hp : 1 ≤ partLen) :
    ∀ (fuel : Nat) (tmp : List Char) (acc : List (List Char)), tmp.length ≤ fuel →
      splitLoop partLen fuel tmp acc = some (acc ++ chunks partLen.toNat tmp) := by
  intro fuel
  induction fuel with
  | zero =>
    intro tmp acc h
    have : tmp = [] := List.length_eq_zero.mp (by omega)
    subst this
    simp [splitLoop, chunks_nil]
  | succ fuel ih =>
    intro tmp acc h
    cases tmp with
    | nil => simp [splitLoop, chunks_nil]
    | cons c cs =>
      have hp1 : 1 ≤ partLen.toNat := by omega
      rw [chunks_cons_step _ hp1 (c :: cs) (by simp)]
      unfold splitLoop
      by_cases hgt : partLen > ((c :: cs).length : Int)
      · have hall : (c :: cs).length ≤ partLen.toNat := by omega
        simp only [hgt, if_true, Int.toNat_ofNat]
        rw [if_neg (by omega)]
        rw [ih _ _ (by simp)]
        simp [List.take_of_length_le hall, List.drop_of_length_le hall, chunks_nil]
      · simp only [hgt, if_false]
        rw [if_neg (by omega)]
        rw [ih _ _ (by simp at h ⊢; omega)]
        simp

/-! ## The checksum returns one alphabet symbol -/

theorem checkCharacter_eq_some {code : List Char} {n : Int} {chk : List Char}
    (h : checkCharacter code n = some chk) : ∃ b, chk = [b] ∧ b ∈ symbols := by
  unfold checkCharacter at h
  simp only at h
  split at h
  · rcases hb : symbols.get? (Int.tmod (checkAccumulate code n) length).toNat with _ | b
    · rw [hb] at h; simp at h
    · rw [hb] at h
      simp only [Option.map_some', Option.some.injEq] at h
      exact ⟨b, h.symm, List.get?_mem hb⟩
  · simp at h

theorem hasSuffix_single (part : List Char) (b : Char) :
    HasSuffix part [b] = true ↔ part.getLast? = some b := by
  unfold HasSuffix
  rw [List.isSuffixOf_iff_suffix, List.getLast?_eq_some_iff]
  constructor
  · rintro ⟨t, ht⟩; exact ⟨t, ht.symm⟩
  · rintro ⟨t, ht⟩; exact ⟨t, ht.symm⟩

/-! ## The loop over the parts -/

theorem checkParts_cons_ok (g : Generator) (code : List Char) (i : Nat) (part : List Char)
    (rest : List (List Char)) (h : partOk g i part) :
    checkParts g code i (part :: rest) = checkParts g code (i + 1) rest := by
  obtain ⟨hlen, b, hb, hc⟩ := h
  have hne : part.length ≠ 0 := by
    intro h0
    have : part = [] := List.length_eq_zero.mp h0
    subst this; simp at hb
  rw [checkParts, if_neg (by simpa using hlen), if_neg hne, ← List.dropLast_eq_take, hc]
  simp [(hasSuffix_single part b).mpr hb]

theorem checkParts_cons_not_ok (g : Generator) (code : List Char) (i : Nat) (part : List Char)
    (rest : List (List Char)) (h : ¬ partOk g i part) (r : List Char × Option ValidateError) :
    checkParts g code i (part :: rest) ≠ some (r.1, none) := by
  rw [checkParts]
  by_cases hlen : (part.length : Int) = g.partLen
  · rw [if_neg (by simpa using hlen)]
    by_cases hne : part.length = 0
    · simp [hne]
    · rw [if_neg hne, ← List.dropLast_eq_take]
      rcases hc : checkCharacter part.dropLast ((i : Int) + 1) with _ | chk
      · simp
      · obtain ⟨b, rfl, _⟩ := checkCharacter_eq_some hc
        have hb : part.getLast? ≠ some b := fun hb => h ⟨hlen, b, hb, hc⟩
        have hs : HasSuffix part [b] = false := by
          rw [← Bool.not_eq_true, hasSuffix_single]; exact hb
        simp [hs]
  · rw [if_pos (by simpa using hlen)]
    simp

theorem checkParts_ok_iff (g : Generator) (code : List Char) :
    ∀ (parts : List (List Char)) (i : Nat) (c : List Char),
      checkParts g code i parts = some (c, none) ↔
        c = code ∧ ∀ j part, parts[j]? = some part → partOk g (i + j) part := by
  intro parts
  induction parts with
  | nil =>
    intro i c
    simp [checkParts, eq_comm]
  | cons part rest ih =>
    intro i c
    by_cases hok : partOk g i part
    · rw [checkParts_cons_ok g code i part rest hok, ih]
      constructor
      · rintro ⟨hc, hall⟩
        refine ⟨hc, ?_⟩
        intro j q hq
        cases j with
        | zero => simp at hq; subst hq; simpa using hok
        | succ j =>
          have := hall j q (by simpa using hq)
          have e : i + 1 + j = i + (j + 1) := by omega
          rwa [e] at this
      · rintro ⟨hc, hall⟩
        refine ⟨hc, ?_⟩
        intro j q hq
        have := hall (j + 1) q (by simpa using hq)
        have e : i + 1 + j = i + (j + 1) := by omega
        rwa [e]
    · constructor
      · intro h
        exact absurd h (checkParts_cons_not_ok g code i part rest hok (c, none))
      · rintro ⟨_, hall⟩
        exact absurd (by simpa using hall 0 part (by simp)) hok

/-! ## Chunks: length, entries, concatenation -/

theorem chunks_length (p : Nat) (flat : List Char) :
    (chunks p flat).length = (flat.length + p - 1) / p := by
  simp [chunks]

theorem chunks_getElem? (p : Nat) (flat : List Char) (k : Nat) :
    (chunks p flat)[k]? =
      if k < (flat.length + p - 1) / p then some (chunk p flat k) else none := by
  unfold chunks
  rw [List.getElem?_map]
  by_cases h : k < (flat.length + p - 1) / p
  · rw [List.getElem?_range h, if_pos h]; rfl
  · rw [if_neg h, List.getElem?_eq_none (by simpa using h)]; rfl

theorem chunk_length (p : Nat) (flat : List Char) (k : Nat) :
    (chunk p flat k).length = min p (flat.length - k * p) := by
  simp [chunk]

theorem chunks_flatten (p : Nat) (hp : 1 ≤ p) :
    ∀ (n : Nat) (flat : List Char), flat.length ≤ n → (chunks p flat).flatten = flat := by
  intro n
  induction n with
  | zero =>
    intro flat h
    have : flat = [] := List.length_eq_zero.mp (by omega)
    subst this
    simp [chunks_nil]
  | succ n ih =>
    intro flat h
    by_cases hnil : flat = []
    · subst hnil; simp [chunks_nil]
    · have hlen : 0 < flat.length := List.length_pos.mpr hnil
      rw [chunks_cons_step p hp flat hnil, List.flatten_cons,
        ih (flat.drop p) (by rw [List.length_drop]; omega), List.take_append_drop]

theorem validateFlat_eq (g : Generator) (hp : 1 ≤ g.partLen) (flat : List Char) :
    validateFlat g flat =
      if ((chunks g.partLen.toNat flat).length : Int) ≠ g.parts then
        some (Join (chunks g.partLen.toNat flat) separator,
          some (ValidateError.wrongPartCount (chunks g.partLen.toNat flat).length))
      else checkParts g (Join (chunks g.partLen.toNat flat) separator) 0
        (chunks g.partLen.toNat flat) := by
  unfold validateFlat
  rw [splitLoop_eq g.partLen hp flat.length flat [] (le_refl _)]
  simp

/-- Number of chunks when the length is a multiple of the chunk size. -/
theorem div_of_mul (n p : Nat) (hp : 1 ≤ p) : (n * p + p - 1) / p = n := by
  have h : n * p + p - 1 = (p - 1) + n * p := by omega
  rw [h, Nat.add_mul_div_right _ _ (by omega), Nat.div_eq_of_lt (by omega)]
  simp

theorem chunk_length_of_mul (n p k : Nat) (flat : List Char) (hlen : flat.length = n * p)
    (hk : k < n) : (chunk p flat k).length = p := by
  rw [chunk_length, hlen]
  have h1 : (k + 1) * p ≤ n * p := Nat.mul_le_mul_right p hk
  rw [Nat.succ_mul] at h1
  omega

/-- If every chunk is full, the length is the chunk count times the chunk size. -/
theorem length_of_full_chunks (p : Nat) (hp : 1 ≤ p) (flat : List Char)
    (hfull : ∀ k, k < (chunks p flat).length → (chunk p flat k).length = p) :
    flat.length = (chunks p flat).length * p := by
  rw [chunks_length] at hfull ⊢
  set n := (flat.length + p - 1) / p with hn
  have hdm := Nat.div_add_mod (flat.length + p - 1) p
  have hml := Nat.mod_lt (flat.length + p - 1) (show p > 0 by omega)
  rw [← hn] at hdm
  rw [Nat.mul_comm] at hdm
  rcases Nat.eq_zero_or_pos n with h0 | hpos
  · rw [h0] at hdm ⊢; omega
  · have hl := hfull (n - 1) (by omega)
    rw [chunk_length] at hl
    have e : (n - 1) * p = n * p - p := by rw [Nat.sub_mul]; simp
    rw [e] at hl
    have : p ≤ n * p := Nat.le_mul_of_pos_left p hpos
    omega

/-! ## When `Validate` accepts -/

theorem validateFlat_ok_iff (g : Generator) (hp : 1 ≤ g.partLen) (flat c : List Char) :
    validateFlat g flat = some (c, none) ↔
      ((chunks g.partLen.toNat flat).length : Int) = g.parts ∧
        c = Join (chunks g.partLen.toNat flat) separator ∧
        ∀ k, k < (chunks g.partLen.toNat flat).length →
          partOk g k (chunk g.partLen.toNat flat k) := by
  rw [validateFlat_eq g hp]
  by_cases hcount : ((chunks g.partLen.toNat flat).length : Int) = g.parts
  · rw [if_neg (by simpa using hcount), checkParts_ok_iff]
    constructor
    · rintro ⟨hc, hall⟩
      refine ⟨hcount, hc, ?_⟩
      intro k hk
      have := hall k (chunk g.partLen.toNat flat k) (by
        rw [chunks_getElem?, if_pos (by rwa [chunks_length] at hk)])
      simpa using this
    · rintro ⟨_, hc, hall⟩
      refine ⟨hc, ?_⟩
      intro j part hj
      rw [chunks_getElem?] at hj
      split at hj
      · rename_i hlt
        simp only [Option.some.injEq] at hj
        subst hj
        simpa using hall j (by rwa [chunks_length])
      · simp at hj
  · rw [if_pos (by simpa using hcount)]
    simp [hcount]

/-- C3. Acceptance criterion: for partLen >= 1, `Validate` returns no error exactly when
the normalised string has parts*partLen characters and, for every k from 1 to parts,
the last character of its k-th chunk of partLen characters is `checkCharacter` of the
first partLen-1 characters of that chunk at position k. -/
theorem Validate_accepts_iff (g : Generator) (hp : 1 ≤ g.partLen) (s : List Char) :
    (∃ c, Validate g s = some (c, none)) ↔
      ((normalise s).length : Int) = g.parts * g.partLen ∧
        ∀ k : Nat, 1 ≤ k → (k : Int) ≤ g.parts →
          ∃ b, (chunk g.partLen.toNat (normalise s) (k - 1)).getLast? = some b ∧
            checkCharacter ((chunk g.partLen.toNat (normalise s) (k - 1)).take
              (g.partLen.toNat - 1)) (k : Int) = some [b] := by
  unfold Validate
  generalize normalise s = flat
  have hp1 : 1 ≤ g.partLen.toNat := by omega
  have hpe : ((g.partLen.toNat : Nat) : Int) = g.partLen := Int.toNat_of_nonneg (by omega)
  constructor
  · rintro ⟨c, hc⟩
    obtain ⟨hcount, -, hall⟩ := (validateFlat_ok_iff g hp flat c).mp hc
    have hfull : ∀ k, k < (chunks g.partLen.toNat flat).length →
        (chunk g.partLen.toNat flat k).length = g.partLen.toNat := by
      intro k hk
      have := (hall k hk).1
      omega
    have hlen := length_of_full_chunks g.partLen.toNat hp1 flat hfull
    refine ⟨?_, ?_⟩
    · rw [← hcount]
      have : ((flat.length : Nat) : Int) =
          (((chunks g.partLen.toNat flat).length * g.partLen.toNat : Nat) : Int) := by
        exact_mod_cast hlen
      rw [this]; push_cast; rw [hpe]
    · intro k hk1 hk2
      have hk : k - 1 < (chunks g.partLen.toNat flat).length := by omega
      obtain ⟨hl, b, hb, hchk⟩ := hall (k - 1) hk
      refine ⟨b, hb, ?_⟩
      rw [List.dropLast_eq_take, hfull (k - 1) hk] at hchk
      have e : (((k - 1 : Nat) : Int) + 1) = (k : Int) := by omega
      rwa [e] at hchk
  · rintro ⟨hlen, hall⟩
    have hparts : 0 ≤ g.parts := by
      by_contra hneg
      have : g.parts * g.partLen < 0 := by nlinarith
      omega
    have hne : ((g.parts.toNat : Nat) : Int) = g.parts := Int.toNat_of_nonneg hparts
    have hlenN : flat.length = g.parts.toNat * g.partLen.toNat := by
      have : ((flat.length : Nat) : Int) = ((g.parts.toNat * g.partLen.toNat : Nat) : Int) := by
        push_cast; rw [hne, hpe]; exact hlen
      exact_mod_cast this
    have hcount : (chunks g.partLen.toNat flat).length = g.parts.toNat := by
      rw [chunks_length, hlenN, div_of_mul _ _ hp1]
    refine ⟨Join (chunks g.partLen.toNat flat) separator, ?_⟩
    rw [validateFlat_ok_iff g hp]
    refine ⟨by rw [hcount, hne], rfl, ?_⟩
    intro k hk
    rw [hcount] at hk
    have hcl := chunk_length_of_mul _ _ k flat hlenN hk
    obtain ⟨b, hb, hchk⟩ := hall (k + 1) (by omega) (by omega)
    simp only [Nat.add_sub_cancel] at hb hchk
    refine ⟨by rw [hcl, hpe], b, hb, ?_⟩
    rw [List.dropLast_eq_take, hcl]
    exact_mod_cast hchk

/-! ## The generation loop -/

theorem Join_nil_sep (parts : List (List Char)) : Join parts [] = parts.flatten := by
  induction parts with
  | nil => rfl
  | cons a rest ih =>
    cases rest with
    | nil => simp [Join]
    | cons b rest => rw [Join, ih]; simp

theorem generateLoop_exit (g : Generator) (randString : Nat → Int → List Char)
    (hasBadWord : List Char → Bool) (fuel k i : Nat) (parts : List (List Char))
    (h : ¬ (i : Int) < g.parts) :
    generateLoop g randString hasBadWord fuel k i parts = some parts := by
  cases fuel <;> simp [generateLoop, h]

/-- Once the loop makes one more iteration, what it returns has passed the filter. -/
theorem generateLoop_no_bad_word (g : Generator) (randString : Nat → Int → List Char)
    (hasBadWord : List Char → Bool) :
    ∀ (fuel k i : Nat) (parts out : List (List Char)), (i : Int) < g.parts →
      generateLoop g randString hasBadWord fuel k i parts = some out →
      hasBadWord (Join out []) = false := by
  intro fuel
  induction fuel with
  | zero =>
    intro k i parts out hi h
    simp [generateLoop, hi] at h
  | succ fuel ih =>
    intro k i parts out hi h
    rw [generateLoop, if_pos hi] at h
    dsimp only at h
    rcases hc : checkCharacter (randString k (g.partLen - 1)) ((i : Int) + 1) with _ | chk
    · rw [hc] at h; simp at h
    · rw [hc] at h
      simp only at h
      by_cases hbad : hasBadWord (Join (parts.set i (randString k (g.partLen - 1) ++ chk)) []) = true
      · rw [if_neg (by simp [hbad])] at h
        exact ih _ _ _ _ hi h
      · rw [if_pos (by simpa using hbad)] at h
        by_cases hnext : ((i + 1 : Nat) : Int) < g.parts
        · exact ih _ _ _ _ hnext h
        · rw [generateLoop_exit _ _ _ _ _ _ _ hnext] at h
          simp only [Option.some.injEq] at h
          subst h
          simpa using hbad

theorem segmentOk_candidate (g : Generator) (i : Nat) (code : List Char) (b : Char)
    (hlen : (code.length : Int) = g.partLen - 1) (hsym : ∀ c ∈ code, c ∈ symbols)
    (hb : b ∈ symbols) (hc : checkCharacter code ((i : Int) + 1) = some [b]) :
    segmentOk g i (code ++ [b]) := by
  refine ⟨⟨?_, b, ?_, ?_⟩, ?_⟩
  · simp; omega
  · simp
  · simpa using hc
  · intro c hcmem
    rcases List.mem_append.mp hcmem with h | h
    · exact hsym c h
    · simp at h; subst h; exact hb

/-- Every segment below the loop index is well formed, and so is every segment of the
slice the loop returns. -/
theorem generateLoop_segments (g : Generator) (randString : Nat → Int → List Char)
    (hasBadWord : List Char → Bool) (hrand : RandAlphabet randString) (hlen : 1 ≤ g.partLen) :
    ∀ (fuel k i : Nat) (parts out : List (List Char)), (parts.length : Int) = g.parts →
      (∀ j seg, j < i → parts[j]? = some seg → segmentOk g j seg) →
      generateLoop g randString hasBadWord fuel k i parts = some out →
      (out.length : Int) = g.parts ∧ ∀ j seg, out[j]? = some seg → segmentOk g j seg := by
  intro fuel
  have hexit : ∀ (i : Nat) (parts : List (List Char)), (parts.length : Int) = g.parts →
      (∀ j seg, j < i → parts[j]? = some seg → segmentOk g j seg) → ¬ (i : Int) < g.parts →
      (parts.length : Int) = g.parts ∧ ∀ j seg, parts[j]? = some seg → segmentOk g j seg := by
    intro i parts hl hinv hi
    refine ⟨hl, ?_⟩
    intro j seg hj
    have hjlt : j < parts.length := by
      by_contra hge
      rw [List.getElem?_eq_none (by omega)] at hj
      simp at hj
    exact hinv j seg (by omega) hj
  induction fuel with
  | zero =>
    intro k i parts out hl hinv h
    by_cases hi : (i : Int) < g.parts
    · simp [generateLoop, hi] at h
    · rw [generateLoop_exit _ _ _ _ _ _ _ hi] at h
      simp only [Option.some.injEq] at h
      subst h
      exact hexit i parts hl hinv hi
  | succ fuel ih =>
    intro k i parts out hl hinv h
    by_cases hi : (i : Int) < g.parts
    · rw [generateLoop, if_pos hi] at h
      dsimp only at h
      rcases hc : checkCharacter (randString k (g.partLen - 1)) ((i : Int) + 1) with _ | chk
      · rw [hc] at h; simp at h
      · rw [hc] at h
        simp only at h
        obtain ⟨b, rfl, hb⟩ := checkCharacter_eq_some hc
        obtain ⟨hrl, hrs⟩ := hrand k (g.partLen - 1) (by omega)
        have hcand := segmentOk_candidate g i _ b hrl hrs hb hc
        have hl2 : (((parts.set i (randString k (g.partLen - 1) ++ [b])).length : Nat) : Int)
            = g.parts := by rw [List.length_set]; exact hl
        have hkeep : ∀ j seg, j < i →
            (parts.set i (randString k (g.partLen - 1) ++ [b]))[j]? = some seg →
            segmentOk g j seg := by
          intro j seg hj hget
          rw [List.getElem?_set, if_neg (by omega)] at hget
          exact hinv j seg hj hget
        split at h
        · refine ih _ _ _ _ hl2 ?_ h
          intro j seg hj hget
          by_cases hji : j = i
          · subst hji
            rw [List.getElem?_set, if_pos rfl, if_pos (by omega)] at hget
            simp only [Option.some.injEq] at hget
            subst hget
            exact hcand
          · exact hkeep j seg (by omega) hget
        · exact ih _ _ _ _ hl2 hkeep h
    · rw [generateLoop_exit _ _ _ _ _ _ _ hi] at h
      simp only [Option.some.injEq] at h
      subst h
      exact hexit i parts hl hinv hi

theorem generateParts_segments (g : Generator) (randString : Nat → Int → List Char)
    (hasBadWord : List Char → Bool) (hrand : RandAlphabet randString) (hlen : 1 ≤ g.partLen)
    (fuel : Nat) (out : List (List Char))
    (h : generateParts g randString hasBadWord fuel = some out) :
    (out.length : Int) = g.parts ∧ ∀ j seg, out[j]? = some seg → segmentOk g j seg := by
  unfold generateParts at h
  split at h
  · simp at h
  · rename_i hneg
    refine generateLoop_segments g randString hasBadWord hrand hlen fuel 0 0 _ out ?_ ?_ h
    · simp; omega
    · intro j seg hj; omega

/-! ## Normalisation of strings of alphabet symbols -/

theorem symbols_fixed : ∀ c ∈ symbols,
    toUpperRune c = c ∧ isValidChar c = true ∧ c ≠ 'O' ∧ c ≠ 'I' ∧ c ≠ 'Z' ∧ c ≠ 'S' := by
  decide

theorem normalise_nil : normalise [] = [] := rfl

theorem normalise_append (a b : List Char) :
    normalise (a ++ b) = normalise a ++ normalise b := by
  simp [normalise, ToUpper, removeInvalid, Replace]

theorem normalise_separator : normalise separator = [] := by decide

theorem normalise_cons_symbol (c : Char) (hc : c ∈ symbols) (s : List Char) :
    normalise (c :: s) = c :: normalise s := by
  obtain ⟨h1, h2, h3, h4, h5, h6⟩ := symbols_fixed c hc
  simp [normalise, ToUpper, removeInvalid, Replace, h1, h2, h3, h4, h5, h6]

theorem normalise_of_symbols (s : List Char) (h : ∀ c ∈ s, c ∈ symbols) : normalise s = s := by
  induction s with
  | nil => rfl
  | cons c s ih =>
    rw [normalise_cons_symbol c (h c (by simp)), ih (fun d hd => h d (by simp [hd]))]

theorem normalise_Join (segs : List (List Char))
    (h : ∀ seg ∈ segs, ∀ c ∈ seg, c ∈ symbols) :
    normalise (Join segs separator) = segs.flatten := by
  induction segs with
  | nil => rfl
  | cons a rest ih =>
    have ha := normalise_of_symbols a (h a (by simp))
    cases rest with
    | nil => simpa [Join] using ha
    | cons b rest =>
      rw [Join, normalise_append, normalise_append, normalise_separator, ha,
        ih (fun seg hseg => h seg (by simp [List.mem_cons] at hseg ⊢; right; exact hseg))]
      simp

theorem chunks_flatten_of_full (p : Nat) (hp : 1 ≤ p) (segs : List (List Char))
    (h : ∀ seg ∈ segs, seg.length = p) : chunks p segs.flatten = segs := by
  induction segs with
  | nil => simp [chunks_nil]
  | cons a rest ih =>
    have ha : a.length = p := h a (by simp)
    have hne : (a :: rest).flatten ≠ [] := by
      intro h0
      rw [List.flatten_cons] at h0
      have ha0 : a = [] := (List.append_eq_nil.mp h0).1
      rw [ha0] at ha
      simp at ha
      omega
    rw [chunks_cons_step p hp _ hne, List.flatten_cons, List.take_left' ha, List.drop_left' ha,
      ih (fun seg hseg => h seg (by simp [hseg]))]

/-! ## Round trip -/

theorem validate_segments (g : Generator) (hlen : 1 ≤ g.partLen) (segs : List (List Char))
    (hcount : (segs.length : Int) = g.parts)
    (hok : ∀ j seg, segs[j]? = some seg → segmentOk g j seg) :
    Validate g (Join segs separator) = some (Join segs separator, none) := by
  have hp1 : 1 ≤ g.partLen.toNat := by omega
  have hsym : ∀ seg ∈ segs, ∀ c ∈ seg, c ∈ symbols := by
    intro seg hseg
    obtain ⟨j, hj⟩ := List.getElem?_of_mem hseg
    exact (hok j seg hj).2
  have hfull : ∀ seg ∈ segs, seg.length = g.partLen.toNat := by
    intro seg hseg
    obtain ⟨j, hj⟩ := List.getElem?_of_mem hseg
    have := (hok j seg hj).1.1
    omega
  unfold Validate
  rw [normalise_Join segs hsym, validateFlat_eq g hlen,
    chunks_flatten_of_full _ hp1 segs hfull, if_neg (by simpa using hcount), checkParts_ok_iff]
  refine ⟨rfl, ?_⟩
  intro j seg hj
  simpa using (hok j seg hj).1

theorem generate_roundtrip (g : Generator) (hlen : 1 ≤ g.partLen)
    (randString : Nat → Int → List Char) (hasBadWord : List Char → Bool)
    (hrand : RandAlphabet randString) (fuel : Nat) (c : List Char)
    (h : Generate g randString hasBadWord fuel = some c) : Validate g c = some (c, none) := by
  unfold Generate at h
  obtain ⟨segs, hsegs, rfl⟩ := Option.map_eq_some'.mp h
  obtain ⟨hcount, hok⟩ := generateParts_segments g randString hasBadWord hrand hlen fuel segs hsegs
  exact validate_segments g hlen segs hcount hok

theorem repeatRand_alphabet : RandAlphabet repeatRand := by
  intro k n hn
  refine ⟨by simp [repeatRand]; omega, ?_⟩
  intro c hc
  have hc2 : c = symbols.getD k '0' := (List.mem_replicate.mp hc).2
  rw [hc2, List.getD_eq_getElem?_getD]
  by_cases hk : k < symbols.length
  · rw [List.getElem?_eq_getElem hk]; exact List.getElem_mem hk
  · rw [List.getElem?_eq_none (by omega)]; decide

/-- C1. Round trip: for parts >= 1 and partLen >= 2, every blacklist and every random
source that returns alphabet symbols, a code returned by `Generate` is returned
unchanged and without error by `Validate` under the same configuration. -/
theorem Generate_Validate_roundtrip (g : Generator) (_hparts : 1 ≤ g.parts)
    (hlen : 2 ≤ g.partLen) (randString : Nat → Int → List Char)
    (hasBadWord : List Char → Bool) (hrand : RandAlphabet randString) (fuel : Nat)
    (c : List Char) (h : Generate g randString hasBadWord fuel = some c) :
    Validate g c = some (c, none) :=
  generate_roundtrip g (by omega) randString hasBadWord hrand fuel c h

/-- A concrete run: the first draw is rejected by the blacklist, the next two give the
code `111H-2223`, which validates to itself. -/
theorem Generate_Validate_roundtrip_witness :
    Generate Default repeatRand leadingZero 3 = some "111H-2223".toList ∧
      Validate Default "111H-2223".toList = some ("111H-2223".toList, none) :=
  ⟨by rfl, Generate_Validate_roundtrip Default (by decide) (by decide) repeatRand leadingZero
    repeatRand_alphabet 3 "111H-2223".toList (by rfl)⟩

/-! ## Shape of what `Generate` returns -/

theorem Join_length (p : Nat) (sep : List Char) (segs : List (List Char))
    (h : ∀ seg ∈ segs, seg.length = p) (hne : segs ≠ []) :
    (Join segs sep).length + sep.length = segs.length * (p + sep.length) := by
  induction segs with
  | nil => exact absurd rfl hne
  | cons a rest ih =>
    have ha : a.length = p := h a (by simp)
    cases rest with
    | nil => simp [Join, ha]
    | cons b rest =>
      have := ih (fun seg hseg => h seg (by simp [List.mem_cons] at hseg ⊢; right; exact hseg))
        (by simp)
      rw [Join]
      simp only [List.length_append, List.length_cons, ha, Nat.add_one_mul] at this ⊢
      omega

theorem Join_filter_separator (segs : List (List Char)) (h : ∀ seg ∈ segs, '-' ∉ seg) :
    (Join segs separator).filter (fun c => c != '-') = segs.flatten := by
  have hseg : ∀ seg : List Char, '-' ∉ seg → seg.filter (fun c => c != '-') = seg := by
    intro seg hs
    rw [List.filter_eq_self]
    intro c hc
    have : c ≠ '-' := fun e => hs (e ▸ hc)
    simpa using this
  induction segs with
  | nil => rfl
  | cons a rest ih =>
    have ha := hseg a (h a (by simp))
    cases rest with
    | nil => simpa [Join] using ha
    | cons b rest =>
      rw [Join, List.filter_append, List.filter_append, ha,
        ih (fun seg hs => h seg (by simp [List.mem_cons] at hs ⊢; right; exact hs))]
      simp [separator]

theorem generateLoop_no_separator (g : Generator) (randString : Nat → Int → List Char)
    (hasBadWord : List Char → Bool) (hrand : ∀ k n, '-' ∉ randString k n) :
    ∀ (fuel k i : Nat) (parts out : List (List Char)), (∀ seg ∈ parts, '-' ∉ seg) →
      generateLoop g randString hasBadWord fuel k i parts = some out →
      ∀ seg ∈ out, '-' ∉ seg := by
  intro fuel
  induction fuel with
  | zero =>
    intro k i parts out hinv h
    by_cases hi : (i : Int) < g.parts
    · simp [generateLoop, hi] at h
    · rw [generateLoop_exit _ _ _ _ _ _ _ hi] at h
      simp only [Option.some.injEq] at h
      subst h; exact hinv
  | succ fuel ih =>
    intro k i parts out hinv h
    by_cases hi : (i : Int) < g.parts
    · rw [generateLoop, if_pos hi] at h
      dsimp only at h
      rcases hc : checkCharacter (randString k (g.partLen - 1)) ((i : Int) + 1) with _ | chk
      · rw [hc] at h; simp at h
      · rw [hc] at h
        simp only at h
        obtain ⟨b, rfl, hb⟩ := checkCharacter_eq_some hc
        have hbsep : b ≠ '-' := by
          intro e; subst e; revert hb; decide
        have hinv2 : ∀ seg ∈ parts.set i (randString k (g.partLen - 1) ++ [b]), '-' ∉ seg := by
          intro seg hseg
          rcases List.mem_or_eq_of_mem_set hseg with h1 | h1
          · exact hinv seg h1
          · subst h1
            intro hmem
            rcases List.mem_append.mp hmem with h2 | h2
            · exact hrand _ _ h2
            · simp at h2; exact hbsep h2.symm
        split at h
        · exact ih _ _ _ _ hinv2 h
        · exact ih _ _ _ _ hinv2 h
    · rw [generateLoop_exit _ _ _ _ _ _ _ hi] at h
      simp only [Option.some.injEq] at h
      subst h; exact hinv

/-- C8. Bad-word exclusion: for parts >= 1, every blacklist and every random source, a
code returned by `Generate` is the join of segments whose concatenation the blacklist
does not reject; when no draw contains the separator, that concatenation is the code
with its separators removed. -/
theorem Generate_no_bad_word (g : Generator) (hparts : 1 ≤ g.parts)
    (randString : Nat → Int → List Char) (hasBadWord : List Char → Bool) (fuel : Nat)
    (c : List Char) (h : Generate g randString hasBadWord fuel = some c) :
    ∃ segs, generateParts g randString hasBadWord fuel = some segs ∧
      c = Join segs separator ∧ hasBadWord segs.flatten = false ∧
      ((∀ k n, '-' ∉ randString k n) →
        hasBadWord (c.filter (fun x => x != '-')) = false) := by
  unfold Generate at h
  obtain ⟨segs, hsegs, rfl⟩ := Option.map_eq_some'.mp h
  have hbad : hasBadWord segs.flatten = false := by
    have hs := hsegs
    unfold generateParts at hs
    rw [if_neg (by omega)] at hs
    rw [← Join_nil_sep]
    exact generateLoop_no_bad_word g randString hasBadWord fuel 0 0 _ segs (by simpa using hparts) hs
  refine ⟨segs, hsegs, rfl, hbad, ?_⟩
  intro hrand
  have hs := hsegs
  unfold generateParts at hs
  rw [if_neg (by omega)] at hs
  have hns := generateLoop_no_separator g randString hasBadWord hrand fuel 0 0 _ segs
    (by intro seg hseg; rw [(List.mem_replicate.mp hseg).2]; simp) hs
  rw [Join_filter_separator segs hns]
  exact hbad

/-- A concrete run with a blacklist that rejects a leading `0`. -/
theorem Generate_no_bad_word_witness :
    Generate Default repeatRand leadingZero 3 = some "111H-2223".toList ∧
      leadingZero ("111H-2223".toList.filter (fun x => x != '-')) = false :=
  ⟨by rfl, by
    obtain ⟨_, _, _, _, h⟩ := Generate_no_bad_word Default (by decide) repeatRand leadingZero 3
      "111H-2223".toList (by rfl)
    apply h
    intro k n hmem
    have := (repeatRand_alphabet k n.toNat (by omega)).2 '-' (by
      simpa [repeatRand] using hmem)
    revert this; decide⟩

/-- C9. Shape of generated codes: for parts >= 1 and partLen >= 2 and a random source
that returns alphabet symbols, a code returned by `Generate` is the join with "-" of
exactly `parts` segments, has length parts*partLen + parts - 1, and its k-th segment
(k from 1) has partLen alphabet symbols, the last of which is
`checkCharacter` of the first partLen-1 at position k. -/
theorem Generate_shape (g : Generator) (hparts : 1 ≤ g.parts) (hlen : 2 ≤ g.partLen)
    (randString : Nat → Int → List Char) (hasBadWord : List Char → Bool)
    (hrand : RandAlphabet randString) (fuel : Nat) (c : List Char)
    (h : Generate g randString hasBadWord fuel = some c) :
    ∃ segs : List (List Char), c = Join segs separator ∧ (segs.length : Int) = g.parts ∧
      (c.length : Int) = g.parts * g.partLen + g.parts - 1 ∧
      ∀ k : Nat, 1 ≤ k → (k : Int) ≤ g.parts →
        ∃ seg b, segs[k - 1]? = some seg ∧ (seg.length : Int) = g.partLen ∧
          (∀ x ∈ seg, x ∈ symbols) ∧ seg.getLast? = some b ∧
          checkCharacter (seg.take (g.partLen.toNat - 1)) (k : Int) = some [b] := by
  unfold Generate at h
  obtain ⟨segs, hsegs, rfl⟩ := Option.map_eq_some'.mp h
  obtain ⟨hcount, hok⟩ :=
    generateParts_segments g randString hasBadWord hrand (by omega) fuel segs hsegs
  have hpe : ((g.partLen.toNat : Nat) : Int) = g.partLen := Int.toNat_of_nonneg (by omega)
  have hfull : ∀ seg ∈ segs, seg.length = g.partLen.toNat := by
    intro seg hseg
    obtain ⟨j, hj⟩ := List.getElem?_of_mem hseg
    have := (hok j seg hj).1.1
    omega
  have hne : segs ≠ [] := by
    intro e; rw [e] at hcount; simp at hcount; omega
  refine ⟨segs, rfl, hcount, ?_, ?_⟩
  · have hj := Join_length g.partLen.toNat separator segs hfull hne
    have hj2 : (((Join segs separator).length + separator.length : Nat) : Int)
        = ((segs.length * (g.partLen.toNat + separator.length) : Nat) : Int) := by
      exact_mod_cast hj
    push_cast at hj2
    rw [hcount, hpe] at hj2
    have hsep : ((separator.length : Nat) : Int) = 1 := by decide
    rw [hsep] at hj2
    linarith
  · intro k hk1 hk2
    have hklt : k - 1 < segs.length := by omega
    have hget : segs[k - 1]? = some segs[k - 1] := List.getElem?_eq_getElem hklt
    obtain ⟨⟨hl, b, hb, hchk⟩, hsym⟩ := hok (k - 1) _ hget
    refine ⟨segs[k - 1], b, hget, hl, hsym, hb, ?_⟩
    rw [List.dropLast_eq_take] at hchk
    have e1 : (segs[k - 1]).length - 1 = g.partLen.toNat - 1 := by omega
    have e2 : (((k - 1 : Nat) : Int) + 1) = (k : Int) := by omega
    rwa [e1, e2] at hchk

/-- A concrete run under the default configuration. -/
theorem Generate_shape_witness :
    Generate Default repeatRand leadingZero 3 = some "111H-2223".toList ∧
      ∃ segs : List (List Char), "111H-2223".toList = Join segs separator ∧
        (segs.length : Int) = Default.parts ∧
        (("111H-2223".toList.length : Nat) : Int) =
          Default.parts * Default.partLen + Default.parts - 1 ∧
        ∀ k : Nat, 1 ≤ k → (k : Int) ≤ Default.parts →
          ∃ seg b, segs[k - 1]? = some seg ∧ (seg.length : Int) = Default.partLen ∧
            (∀ x ∈ seg, x ∈ symbols) ∧ seg.getLast? = some b ∧
            checkCharacter (seg.take (Default.partLen.toNat - 1)) (k : Int) = some [b] :=
  ⟨by rfl, Generate_shape Default (by decide) (by decide) repeatRand leadingZero
    repeatRand_alphabet 3 "111H-2223".toList (by rfl)⟩

/-! ## The checksum against its reference -/

theorem wrapInt_of_range (x : Int) (h1 : 0 ≤ x) (h2 : x < 2 ^ 63) : wrapInt x = x := by
  unfold wrapInt
  norm_num at h2 ⊢
  omega

theorem IndexRune_range (r : Char) (h : r ∈ symbols) :
    0 ≤ IndexRune symbols r ∧ IndexRune symbols r ≤ 31 := by
  unfold IndexRune
  rw [if_pos h]
  have hlt := List.indexOf_lt_length.mpr h
  have hl : symbols.length = 32 := rfl
  omega

theorem length_eq : length = 31 := by decide

/-- No wrap-around happens while the accumulator stays below `1002 * 19 ^ 12`. -/
theorem checkAccumulate_small :
    ∀ (body : List Char) (acc : Int) (k : Nat), (∀ c ∈ body, c ∈ symbols) → 0 ≤ acc →
      acc + 2 ≤ 1002 * 19 ^ k → body.length + k ≤ 12 →
      checkAccumulate body acc = body.foldl (fun a r => a * 19 + IndexRune symbols r) acc ∧
        0 ≤ checkAccumulate body acc := by
  intro body
  induction body with
  | nil =>
    intro acc k _ h0 _ _
    exact ⟨rfl, h0⟩
  | cons c cs ih =>
    intro acc k hsym h0 hb hk
    obtain ⟨hi0, hi1⟩ := IndexRune_range c (hsym c (by simp))
    have hk1 : k + 1 ≤ 12 := by simp at hk; omega
    have hpow : (19 : Int) ^ (k + 1) ≤ 19 ^ 12 := pow_le_pow_right₀ (by norm_num) hk1
    have hstep : acc * 19 + IndexRune symbols c + 2 ≤ 1002 * 19 ^ (k + 1) := by
      rw [pow_succ]; linarith
    have hlt : acc * 19 + IndexRune symbols c < 2 ^ 63 := by
      have : (1002 : Int) * 19 ^ 12 < 2 ^ 63 := by norm_num
      linarith
    have hnn : 0 ≤ acc * 19 + IndexRune symbols c := by positivity
    have hw := wrapInt_of_range _ hnn hlt
    have := ih (acc * 19 + IndexRune symbols c) (k + 1)
      (fun d hd => hsym d (by simp [hd])) hnn hstep (by simp at hk ⊢; omega)
    unfold checkAccumulate at this ⊢
    simp only [List.foldl_cons, hw]
    exact this

/-- On bodies of at most 12 alphabet symbols and positions 1 to 1000 the code computes
the reference checksum. -/
theorem checkCharacter_eq_reference (body : List Char) (position : Int)
    (hsym : ∀ c ∈ body, c ∈ symbols) (hlen : body.length ≤ 12) (h1 : 1 ≤ position)
    (h2 : position ≤ 1000) : checkCharacter body position = referenceCheck body position := by
  obtain ⟨he, hnn⟩ := checkAccumulate_small body position 0 hsym (by omega)
    (by norm_num; omega) (by omega)
  unfold checkCharacter referenceCheck
  simp only
  rw [length_eq, Int.tmod_eq_emod hnn (by norm_num), if_pos (Int.emod_nonneg _ (by norm_num)), he]

set_option maxRecDepth 100000 in
/-- C2. The code departs from the reference checksum on a body of 15 alphabet symbols:
the accumulator `19 ^ 15` exceeds `2 ^ 63`, wraps to a negative number, and the
index `check % 31` is negative, where the reference returns the symbol `1`; `Validate`
reaches that call under the configuration `New(1, 16)`. -/
theorem checkCharacter_overflow :
    checkAccumulate "000000000000000".toList 1 = 19 ^ 15 - 2 ^ 64 ∧
      checkCharacter "000000000000000".toList 1 = none ∧
      referenceCheck "000000000000000".toList 1 = some "1".toList ∧
      Validate (New 1 16) "0000000000000000".toList = none := by
  refine ⟨by rfl, by rfl, by rfl, by rfl⟩

/-- A concrete input under the default configuration: `1k7q ctfm` is accepted and
normalises to 8 characters. -/
theorem Validate_accepts_iff_witness :
    (1 : Int) ≤ Default.partLen ∧
      Validate Default "1k7q ctfm".toList = some ("1K7Q-CTFM".toList, none) ∧
      ((normalise "1k7q ctfm".toList).length : Int) = Default.parts * Default.partLen :=
  ⟨by decide, by rfl,
    ((Validate_accepts_iff Default (by decide) "1k7q ctfm".toList).mp ⟨_, by rfl⟩).1⟩

/-! ## The canonical string -/

theorem Replace_valid (l : List Char) (old new : Char)
    (h : ∀ c ∈ l, isValidChar c = true) (hn : isValidChar new = true) :
    ∀ c ∈ Replace l old new, isValidChar c = true := by
  intro c hc
  simp only [Replace, List.mem_map] at hc
  obtain ⟨x, hx, hxc⟩ := hc
  rw [← hxc]
  split
  · exact hn
  · exact h x hx

theorem normalise_valid (s : List Char) : ∀ c ∈ normalise s, isValidChar c = true := by
  have h0 : ∀ c ∈ removeInvalid (ToUpper s), isValidChar c = true := by
    intro c hc
    simp only [removeInvalid, List.mem_filter] at hc
    exact hc.2
  exact Replace_valid _ _ _ (Replace_valid _ _ _ (Replace_valid _ _ _
    (Replace_valid _ _ _ h0 (by decide)) (by decide)) (by decide)) (by decide)

theorem normalise_no_separator (s : List Char) : '-' ∉ normalise s := by
  intro h
  have := normalise_valid s '-' h
  revert this
  decide

theorem chunk_bounds (p : Nat) (hp : 1 ≤ p) (flat : List Char) (k : Nat)
    (hk : k < (chunks p flat).length) :
    0 < (chunk p flat k).length ∧ (chunk p flat k).length ≤ p ∧
      (k + 1 < (chunks p flat).length → (chunk p flat k).length = p) := by
  rw [chunks_length] at hk ⊢
  rw [chunk_length]
  have h1 : (k + 1) * p ≤ flat.length + p - 1 := (Nat.le_div_iff_mul_le (by omega)).mp hk
  rw [Nat.add_one_mul] at h1
  refine ⟨by omega, by omega, ?_⟩
  intro hk2
  have h2 : (k + 1 + 1) * p ≤ flat.length + p - 1 := (Nat.le_div_iff_mul_le (by omega)).mp hk2
  rw [Nat.add_one_mul, Nat.add_one_mul] at h2
  omega

theorem mem_chunk (p : Nat) (flat : List Char) (k : Nat) : ∀ c ∈ chunk p flat k, c ∈ flat := by
  intro c hc
  exact List.mem_of_mem_drop (List.mem_of_mem_take hc)

theorem checkParts_fst (g : Generator) (code : List Char) :
    ∀ (parts : List (List Char)) (i : Nat) (r : List Char × Option ValidateError),
      checkParts g code i parts = some r → r.1 = code := by
  intro parts
  induction parts with
  | nil =>
    intro i r h
    simp only [checkParts, Option.some.injEq] at h
    rw [← h]
  | cons part rest ih =>
    intro i r h
    rw [checkParts] at h
    by_cases hl : (part.length : Int) ≠ g.partLen
    · rw [if_pos hl] at h
      simp only [Option.some.injEq] at h; rw [← h]
    · rw [if_neg hl] at h
      by_cases h0 : part.length = 0
      · rw [if_pos h0] at h; simp at h
      · rw [if_neg h0] at h
        rcases hc : checkCharacter (part.take (part.length - 1)) ((i : Int) + 1) with _ | chk
        · rw [hc] at h; simp at h
        · rw [hc] at h
          simp only at h
          split at h
          · simp only [Option.some.injEq] at h; rw [← h]
          · exact ih _ _ h

theorem checkParts_none (g : Generator) (code : List Char) :
    ∀ (parts : List (List Char)) (i : Nat), (∀ part ∈ parts, part ≠ []) →
      checkParts g code i parts = none →
      ∃ (j : Nat) (part : List Char), parts[j]? = some part ∧
        (part.length : Int) = g.partLen ∧
        checkCharacter part.dropLast ((i : Int) + (j : Int) + 1) = none := by
  intro parts
  induction parts with
  | nil =>
    intro i _ h
    simp [checkParts] at h
  | cons part rest ih =>
    intro i hne h
    rw [checkParts] at h
    by_cases hl : (part.length : Int) ≠ g.partLen
    · rw [if_pos hl] at h; simp at h
    · rw [if_neg hl] at h
      by_cases h0 : part.length = 0
      · exact absurd (List.length_eq_zero.mp h0) (hne part (by simp))
      · rw [if_neg h0] at h
        rcases hc : checkCharacter (part.take (part.length - 1)) ((i : Int) + 1) with _ | chk
        · refine ⟨0, part, by simp, by simpa using hl, ?_⟩
          rw [List.dropLast_eq_take]
          simpa using hc
        · rw [hc] at h
          simp only at h
          split at h
          · simp at h
          · obtain ⟨j, q, hq, hql, hqc⟩ := ih (i + 1) (fun q hq => hne q (by simp [hq])) h
            refine ⟨j + 1, q, by simpa using hq, hql, ?_⟩
            have e : ((i + 1 : Nat) : Int) + (j : Int) + 1
                = (i : Int) + ((j + 1 : Nat) : Int) + 1 := by
              push_cast; ring
            rwa [e] at hqc

theorem isValidChar_toNat (c : Char) (h : isValidChar c = true) :
    (48 ≤ c.toNat ∧ c.toNat ≤ 57) ∨ (65 ≤ c.toNat ∧ c.toNat ≤ 90) := by
  unfold isValidChar at h
  simp only [Bool.or_eq_true, Bool.and_eq_true, decide_eq_true_eq] at h
  rcases h with ⟨h1, h2⟩ | ⟨h1, h2⟩
  · left; exact ⟨h1, h2⟩
  · right; exact ⟨h1, h2⟩

theorem replaced_symbol (c : Char) (h : isValidChar c = true) :
    (fun x : Char => if x = 'S' then '5' else x)
      ((fun x : Char => if x = 'Z' then '2' else x)
        ((fun x : Char => if x = 'I' then '1' else x)
          ((fun x : Char => if x = 'O' then '0' else x) c))) ∈ symbols := by
  have hn := isValidChar_toNat c h
  rw [← Char.ofNat_toNat c]
  generalize c.toNat = n at hn
  rcases hn with ⟨h1, h2⟩ | ⟨h1, h2⟩ <;> interval_cases n <;> decide

/-- Every character of a normalised string is one of the 32 alphabet symbols. -/
theorem normalise_symbols (s : List Char) : ∀ c ∈ normalise s, c ∈ symbols := by
  intro c hc
  simp only [normalise, ToUpper, removeInvalid, Replace, List.map_map, List.mem_map,
    List.mem_filter] at hc
  obtain ⟨x, ⟨_, hv⟩, hx⟩ := hc
  rw [← hx]
  exact replaced_symbol x hv

/-- Within the range where the accumulator cannot wrap, `checkCharacter` returns. -/
theorem checkCharacter_ne_none_of_small (body : List Char) (position : Int)
    (hsym : ∀ c ∈ body, c ∈ symbols) (hlen : body.length ≤ 12) (h1 : 1 ≤ position)
    (h2 : position ≤ 1000) : checkCharacter body position ≠ none := by
  obtain ⟨_, hnn⟩ := checkAccumulate_small body position 0 hsym (by omega)
    (by norm_num; omega) (by omega)
  unfold checkCharacter
  simp only
  rw [length_eq, if_pos (Int.tmod_nonneg _ hnn)]
  have hlt : (Int.tmod (checkAccumulate body position) 31).toNat < symbols.length := by
    have := Int.tmod_lt_of_pos (checkAccumulate body position) (show (0 : Int) < 31 by norm_num)
    have hl : symbols.length = 32 := rfl
    have h0 := Int.tmod_nonneg (31 : Int) hnn
    omega
  rw [List.get?_eq_get hlt]
  simp

/-- C4. Canonical form: for partLen >= 1 the string `Validate` returns, with or without
an error, is the normalised string (upper-cased, stripped to 0-9A-Z, then O, I, Z, S
replaced by 0, 1, 2, 5) cut into chunks joined by "-": removing the separators gives
the normalised string back, every chunk is non-empty with at most partLen
characters, and every chunk but the last has exactly partLen.  `Validate` returns
unless the checksum of some full chunk cannot be computed, and always returns when
partLen <= 13 and parts <= 1000. -/
theorem Validate_canonical (g : Generator) (hp : 1 ≤ g.partLen) (s : List Char) :
    normalise s =
        Replace (Replace (Replace (Replace (removeInvalid (ToUpper s)) 'O' '0') 'I' '1')
          'Z' '2') 'S' '5' ∧
      (∀ r, Validate g s = some r →
        r.1 = Join (chunks g.partLen.toNat (normalise s)) separator) ∧
      (Validate g s = none →
        ∃ (k : Nat) (part : List Char),
          (chunks g.partLen.toNat (normalise s))[k]? = some part ∧
          (part.length : Int) = g.partLen ∧ (k : Int) < g.parts ∧
          checkCharacter part.dropLast ((k : Int) + 1) = none) ∧
      (g.partLen ≤ 13 → g.parts ≤ 1000 → Validate g s ≠ none) ∧
      (Join (chunks g.partLen.toNat (normalise s)) separator).filter (fun x => x != '-')
        = normalise s ∧
      (chunks g.partLen.toNat (normalise s)).flatten = normalise s ∧
      ∀ k part, (chunks g.partLen.toNat (normalise s))[k]? = some part →
        0 < part.length ∧ (part.length : Int) ≤ g.partLen ∧
          (k + 1 < (chunks g.partLen.toNat (normalise s)).length →
            (part.length : Int) = g.partLen) := by
  have hp1 : 1 ≤ g.partLen.toNat := by omega
  have hpe : ((g.partLen.toNat : Nat) : Int) = g.partLen := Int.toNat_of_nonneg (by omega)
  have hflat := chunks_flatten g.partLen.toNat hp1 _ (normalise s) (le_refl _)
  have hget : ∀ k part, (chunks g.partLen.toNat (normalise s))[k]? = some part →
      k < (chunks g.partLen.toNat (normalise s)).length ∧
        part = chunk g.partLen.toNat (normalise s) k := by
    intro k part hk
    rw [chunks_getElem?] at hk
    split at hk
    · rename_i hlt
      simp only [Option.some.injEq] at hk
      exact ⟨by rwa [chunks_length], hk.symm⟩
    · simp at hk
  have hbounds : ∀ k part, (chunks g.partLen.toNat (normalise s))[k]? = some part →
      0 < part.length ∧ part.length ≤ g.partLen.toNat ∧
        (k + 1 < (chunks g.partLen.toNat (normalise s)).length →
          part.length = g.partLen.toNat) := by
    intro k part hk
    obtain ⟨hlt, rfl⟩ := hget k part hk
    exact chunk_bounds _ hp1 _ k hlt
  have hnone : Validate g s = none →
      ∃ (k : Nat) (part : List Char),
        (chunks g.partLen.toNat (normalise s))[k]? = some part ∧
        (part.length : Int) = g.partLen ∧ (k : Int) < g.parts ∧
        checkCharacter part.dropLast ((k : Int) + 1) = none := by
    intro hnone
    unfold Validate at hnone
    rw [validateFlat_eq g hp] at hnone
    split at hnone
    · simp at hnone
    · rename_i hcount
      have hne : ∀ part ∈ chunks g.partLen.toNat (normalise s), part ≠ [] := by
        intro part hpart
        obtain ⟨k, hk⟩ := List.getElem?_of_mem hpart
        have := (hbounds k part hk).1
        intro e; rw [e] at this; simp at this
      obtain ⟨j, part, h1, h2, h3⟩ := checkParts_none g _ _ 0 hne hnone
      have hj := (hget j part h1).1
      have hcount2 : ((chunks g.partLen.toNat (normalise s)).length : Int) = g.parts :=
        not_not.mp hcount
      exact ⟨j, part, h1, h2, by omega, by simpa using h3⟩
  refine ⟨rfl, ?_, hnone, ?_, ?_, hflat, ?_⟩
  · intro r hr
    unfold Validate at hr
    rw [validateFlat_eq g hp] at hr
    split at hr
    · simp only [Option.some.injEq] at hr; rw [← hr]
    · exact checkParts_fst g _ _ _ r hr
  · intro hsmall hparts hn
    obtain ⟨k, part, hk, hl, hkp, hc⟩ := hnone hn
    obtain ⟨_, rfl⟩ := hget k part hk
    refine checkCharacter_ne_none_of_small _ _ ?_ ?_ (by omega) (by omega) hc
    · intro c hcm
      exact normalise_symbols s c (mem_chunk _ _ _ _ (List.mem_of_mem_dropLast hcm))
    · rw [List.length_dropLast]; omega
  · apply Eq.trans (Join_filter_separator _ ?_) hflat
    intro seg hseg hmem
    obtain ⟨k, hk⟩ := List.getElem?_of_mem hseg
    obtain ⟨_, rfl⟩ := hget k seg hk
    exact normalise_no_separator s (mem_chunk _ _ _ _ hmem)
  · intro k part hk
    obtain ⟨h1, h2, h3⟩ := hbounds k part hk
    refine ⟨h1, by omega, ?_⟩
    intro hlt
    have := h3 hlt
    omega

/-- A concrete input with a short last chunk: `1k7q ctf` gives `1K7Q-CTF`. -/
theorem Validate_canonical_witness :
    (1 : Int) ≤ Default.partLen ∧
      Validate Default "1k7q ctf".toList =
        some ("1K7Q-CTF".toList, some (ValidateError.wrongPartLength 1)) ∧
      "1K7Q-CTF".toList = Join (chunks Default.partLen.toNat (normalise "1k7q ctf".toList))
        separator :=
  ⟨by decide, by rfl,
    (Validate_canonical Default (by decide) "1k7q ctf".toList).2.1
      ("1K7Q-CTF".toList, some (ValidateError.wrongPartLength 1)) (by rfl)⟩

/-! ## The wrong-number-of-parts error -/

theorem checkParts_not_count (g : Generator) (code : List Char) :
    ∀ (parts : List (List Char)) (i : Nat) (c : List Char) (n : Nat),
      checkParts g code i parts ≠ some (c, some (ValidateError.wrongPartCount n)) := by
  intro parts
  induction parts with
  | nil =>
    intro i c n h
    simp [checkParts] at h
  | cons part rest ih =>
    intro i c n h
    rw [checkParts] at h
    by_cases hl : (part.length : Int) ≠ g.partLen
    · rw [if_pos hl] at h; simp at h
    · rw [if_neg hl] at h
      by_cases h0 : part.length = 0
      · rw [if_pos h0] at h; simp at h
      · rw [if_neg h0] at h
        rcases hc : checkCharacter (part.take (part.length - 1)) ((i : Int) + 1) with _ | chk
        · rw [hc] at h; simp at h
        · rw [hc] at h
          simp only at h
          split at h
          · simp at h
          · exact ih _ _ _ h

/-- The number of chunks differs from `parts` exactly when the length is at most
`(parts - 1) * partLen` or exceeds `parts * partLen`. -/
theorem chunk_count_ne_iff (len p : Nat) (hp : 1 ≤ p) (parts : Int) :
    (((len + p - 1) / p : Nat) : Int) ≠ parts ↔
      ((len : Int) ≤ (parts - 1) * (p : Int) ∨ parts * (p : Int) < (len : Int)) := by
  have hdm := Nat.div_add_mod (len + p - 1) p
  have hml := Nat.mod_lt (len + p - 1) (show p > 0 by omega)
  set q := (len + p - 1) / p with hq
  set r := (len + p - 1) % p with hr
  have hI : (p : Int) * (q : Int) + (r : Int) = (len : Int) + (p : Int) - 1 := by
    have : ((p * q + r : Nat) : Int) = ((len + p - 1 : Nat) : Int) := by rw [hdm]
    push_cast at this
    rw [this]
    omega
  have hrI : (r : Int) < (p : Int) := by exact_mod_cast hml
  have hr0 : (0 : Int) ≤ (r : Int) := by positivity
  have hpI : (1 : Int) ≤ (p : Int) := by exact_mod_cast hp
  constructor
  · intro hne
    rcases lt_or_gt_of_ne hne with hlt | hgt
    · left
      have h1 : (0 : Int) ≤ (parts - 1 - (q : Int)) * (p : Int) :=
        mul_nonneg (by omega) (by omega)
      nlinarith
    · right
      have h1 : (0 : Int) ≤ ((q : Int) - 1 - parts) * (p : Int) :=
        mul_nonneg (by omega) (by omega)
      nlinarith
  · rintro (h | h) heq
    · rw [← heq] at h; nlinarith
    · rw [← heq] at h; nlinarith

/-- C7 as stated fails on its own example: under the default 2x4 configuration the
7-character input "1K7QCTF" splits into the two chunks "1K7Q" and "CTF", passes the
count test, and gets the wrong-length error for part 1. -/
theorem Validate_short_input_not_count :
    (1 : Int) ≤ Default.parts ∧ (2 : Int) ≤ Default.partLen ∧
      ((normalise "1K7QCTF".toList).length : Int) ≠ Default.parts * Default.partLen ∧
      Validate Default "1K7QCTF".toList =
        some ("1K7Q-CTF".toList, some (ValidateError.wrongPartLength 1)) :=
  ⟨by decide, by decide, by decide, by rfl⟩

/-- C7, amended. For partLen >= 1, `Validate` returns the wrong-number-of-parts error
exactly when the normalised string has at most (parts-1)*partLen characters or more
than parts*partLen characters; the number it reports is the number of chunks. -/
theorem Validate_wrongPartCount_iff (g : Generator) (hp : 1 ≤ g.partLen) (s : List Char) :
    ((∃ c n, Validate g s = some (c, some (ValidateError.wrongPartCount n))) ↔
      (((normalise s).length : Int) ≤ (g.parts - 1) * g.partLen ∨
        g.parts * g.partLen < ((normalise s).length : Int))) ∧
      ∀ c n, Validate g s = some (c, some (ValidateError.wrongPartCount n)) →
        n = ((normalise s).length + g.partLen.toNat - 1) / g.partLen.toNat := by
  have hp1 : 1 ≤ g.partLen.toNat := by omega
  have hpe : ((g.partLen.toNat : Nat) : Int) = g.partLen := Int.toNat_of_nonneg (by omega)
  have hiff := chunk_count_ne_iff (normalise s).length g.partLen.toNat hp1 g.parts
  rw [hpe] at hiff
  unfold Validate
  rw [validateFlat_eq g hp, chunks_length]
  refine ⟨?_, ?_⟩
  · rw [← hiff]
    constructor
    · rintro ⟨c, n, h⟩
      by_contra hcon
      rw [if_neg (not_not.mpr hcon)] at h
      exact checkParts_not_count g _ _ _ _ _ h
    · intro hne
      rw [if_pos hne]
      exact ⟨_, _, rfl⟩
  · intro c n h
    split at h
    · simp only [Option.some.injEq, Prod.mk.injEq, ValidateError.wrongPartCount.injEq] at h
      exact h.2.symm
    · exact absurd h (checkParts_not_count g _ _ _ _ _)

/-- A concrete input with one chunk where two are configured. -/
theorem Validate_wrongPartCount_iff_witness :
    (1 : Int) ≤ Default.partLen ∧
      ((normalise "1K7Q".toList).length : Int) ≤ (Default.parts - 1) * Default.partLen ∧
      ∃ c n, Validate Default "1K7Q".toList = some (c, some (ValidateError.wrongPartCount n)) :=
  ⟨by decide, by decide,
    (Validate_wrongPartCount_iff Default (by decide) "1K7Q".toList).1.mpr (Or.inl (by decide))⟩

/-! ## Construction -/

/-- C10 as stated fails: `New(0, 1)` returns a generator, with parts = 0 and
partLen = 1, and that generator is usable: it validates the empty string and generates
the empty code. -/
theorem New_accepts_invalid_config :
    New 0 1 = { parts := 0, partLen := 1 } ∧
      ¬ (1 ≤ (New 0 1).parts ∧ 2 ≤ (New 0 1).partLen) ∧
      Validate (New 0 1) [] = some ([], none) ∧
      Generate (New 0 1) repeatRand noBadWord 0 = some [] :=
  ⟨rfl, by decide, by rfl, by rfl⟩

/-- C10, amended. `New(parts, partLen)` never fails: for all integers it returns the
generator that holds exactly these two values, whatever their sign or size; the default
configuration is `New(2, 4)`. -/
theorem New_total (parts partLen : Int) :
    (New parts partLen).parts = parts ∧ (New parts partLen).partLen = partLen ∧
      (∀ g : Generator, New g.parts g.partLen = g) ∧
      Default = New 2 4 :=
  ⟨rfl, rfl, fun _ => rfl, rfl⟩

/-! ## Case, format and confusable letters -/

theorem normalise_cons (c : Char) (s : List Char) :
    normalise (c :: s) = normalise [c] ++ normalise s := by
  rw [← normalise_append]; rfl

theorem toUpperRune_toLowerASCII (c : Char) : toUpperRune (toLowerASCII c) = toUpperRune c := by
  unfold toLowerASCII
  split <;> rfl

theorem toUpperRune_of_other (p : Char) (h : isAsciiOther p = true) : toUpperRune p = p := by
  unfold toUpperRune
  split <;> first | rfl | (exfalso; revert h; decide)

theorem normalise_single_lower (c : Char) : normalise [toLowerASCII c] = normalise [c] := by
  simp only [normalise, ToUpper, List.map_cons, List.map_nil, toUpperRune_toLowerASCII]

theorem normalise_single_other (p : Char) (h : isAsciiOther p = true) : normalise [p] = [] := by
  have hv : isValidChar p = false := by
    unfold isAsciiOther at h
    simp only [Bool.and_eq_true, Bool.not_eq_true'] at h
    exact h.1.2
  simp [normalise, ToUpper, removeInvalid, Replace, toUpperRune_of_other p h, hv]

theorem normalise_formatEdit {s t : List Char} (h : FormatEdit s t) :
    normalise t = normalise s := by
  induction h with
  | done => rfl
  | @keep c a b _ ih => rw [normalise_cons c b, normalise_cons c a, ih]
  | @lower c a b _ ih =>
    rw [normalise_cons (toLowerASCII c) b, normalise_cons c a, ih, normalise_single_lower]
  | @unseparate a b _ ih =>
    have hsep : normalise ['-'] = [] := by decide
    rw [normalise_cons '-' a, ih, hsep]; rfl
  | @put p a b hp _ ih => rw [normalise_cons p b, normalise_single_other p hp, ih]; rfl

theorem formatEdit_refl (s : List Char) : FormatEdit s s := by
  induction s with
  | nil => exact FormatEdit.done
  | cons c s ih => exact FormatEdit.keep c ih

theorem formatEdit_lower_all (s : List Char) : FormatEdit s (s.map toLowerASCII) := by
  induction s with
  | nil => exact FormatEdit.done
  | cons c s ih => exact FormatEdit.lower c ih

theorem formatEdit_unseparate_all (s : List Char) :
    FormatEdit s (s.filter (fun x => x != '-')) := by
  induction s with
  | nil => exact FormatEdit.done
  | cons c s ih =>
    by_cases hc : c = '-'
    · subst hc
      simpa using FormatEdit.unseparate ih
    · have : (c != '-') = true := by simpa using hc
      rw [List.filter_cons, if_pos this]
      exact FormatEdit.keep c ih

theorem normalise_confusable {s t : List Char} (h : Confusable s t) :
    normalise t = normalise s := by
  induction h with
  | done => rfl
  | @keep c a b _ ih => rw [normalise_cons c b, normalise_cons c a, ih]
  | @swap d l a b hmem _ ih =>
    have hpair : ∀ pr ∈ confusablePairs, normalise [pr.2] = normalise [pr.1] := by decide
    rw [normalise_cons l b, normalise_cons d a, ih]
    exact congrArg (fun x => x ++ normalise a) (hpair (d, l) hmem)

/-- C5. Case and format insensitivity: `Validate` returns the same pair for a string
and for any string obtained from it by lower-casing ASCII letters, deleting separators
and putting in ASCII characters that are neither letters nor digits; in particular
for the string with every letter lower-cased and for the string with all separators
removed, and a generated code still validates to itself after such edits. -/
theorem Validate_format_insensitive (g : Generator) (s t : List Char) (h : FormatEdit s t) :
    Validate g t = Validate g s ∧
      Validate g (s.map toLowerASCII) = Validate g s ∧
      Validate g (s.filter (fun x => x != '-')) = Validate g s ∧
      ∀ (randString : Nat → Int → List Char) (hasBadWord : List Char → Bool) (fuel : Nat),
        1 ≤ g.partLen → RandAlphabet randString →
        Generate g randString hasBadWord fuel = some s → Validate g t = some (s, none) := by
  have key : ∀ {a b : List Char}, FormatEdit a b → Validate g b = Validate g a := by
    intro a b hab
    unfold Validate
    rw [normalise_formatEdit hab]
  refine ⟨key h, key (formatEdit_lower_all s), key (formatEdit_unseparate_all s), ?_⟩
  intro randString hasBadWord fuel hp hrand hgen
  rw [key h]
  exact generate_roundtrip g hp randString hasBadWord hrand fuel s hgen

/-- The example `1k7q ctfm` under the default configuration. -/
theorem Validate_format_insensitive_witness :
    FormatEdit "1K7Q-CTFM".toList "1k7q ctfm".toList ∧
      Validate Default "1k7q ctfm".toList = some ("1K7Q-CTFM".toList, none) := by
  have h : FormatEdit "1K7Q-CTFM".toList "1k7q ctfm".toList :=
    FormatEdit.keep '1' (FormatEdit.lower 'K' (FormatEdit.keep '7' (FormatEdit.lower 'Q'
      (FormatEdit.unseparate (FormatEdit.put ' ' (by decide) (FormatEdit.lower 'C'
        (FormatEdit.lower 'T' (FormatEdit.lower 'F' (FormatEdit.lower 'M'
          FormatEdit.done)))))))))
  exact ⟨h, (Validate_format_insensitive Default _ _ h).1.trans (by rfl)⟩

/-- C6. Confusable-letter equivalence: replacing occurrences of the digits 0, 1, 2, 5 in
the input by the letters O, I, Z, S, in either case, changes neither the canonical
string nor the outcome that `Validate` returns. -/
theorem Validate_confusable (g : Generator) (s t : List Char) (h : Confusable s t) :
    Validate g t = Validate g s := by
  unfold Validate
  rw [normalise_confusable h]

/-- The example `ab1z-cd34` under the default configuration; its canonical string is
`AB12-CD34`. -/
theorem Validate_confusable_witness :
    Confusable "AB12-CD34".toList "AB1z-CD34".toList ∧
      Validate Default "AB1z-CD34".toList = Validate Default "AB12-CD34".toList ∧
      (Validate Default "ab1z-cd34".toList).map Prod.fst = some "AB12-CD34".toList ∧
      Validate Default "ab1z-cd34".toList = Validate Default "AB12-CD34".toList := by
  have h : Confusable "AB12-CD34".toList "AB1z-CD34".toList :=
    Confusable.keep 'A' (Confusable.keep 'B' (Confusable.keep '1'
      (Confusable.swap '2' 'z' (by decide) (Confusable.keep '-' (Confusable.keep 'C'
        (Confusable.keep 'D' (Confusable.keep '3' (Confusable.keep '4'
          Confusable.done))))))))
  exact ⟨h, Validate_confusable Default _ _ h, by rfl, by rfl⟩

/-! ## Where the 64-bit accumulator breaks `Validate` and `Generate` -/

theorem zeroRand_alphabet : RandAlphabet zeroRand := by
  intro k n hn
  refine ⟨by simp [zeroRand]; omega, ?_⟩
  intro c hc
  rw [(List.mem_replicate.mp hc).2]
  decide

set_option maxRecDepth 100000 in
/-- C11. `Validate` does not return on every input: under `New(1, 16)` the input of 16
zeros is split into one part of 16 characters, and the checksum of its first 15
characters leaves the accumulator at `19 ^ 15 - 2 ^ 64`, so that `check % 31` is
`-15` and the index into the alphabet is out of range. -/
theorem Validate_index_out_of_range :
    (1 : Int) ≤ (New 1 16).parts ∧ (2 : Int) ≤ (New 1 16).partLen ∧
      splitLoop (New 1 16).partLen 16 "0000000000000000".toList [] =
        some ["0000000000000000".toList] ∧
      Int.tmod (checkAccumulate "000000000000000".toList 1) length = -15 ∧
      Validate (New 1 16) "0000000000000000".toList = none := by
  refine ⟨by decide, by decide, by rfl, by rfl, by rfl⟩

set_option maxRecDepth 100000 in
/-- C12. `Generate` can fail: under `New(1, 16)`, when the random source draws 15 zeros,
the checksum of the draw has a negative index into the alphabet, and `Generate`
returns nothing however many draws it is allowed. -/
theorem Generate_index_out_of_range :
    (1 : Int) ≤ (New 1 16).parts ∧ (2 : Int) ≤ (New 1 16).partLen ∧
      RandAlphabet zeroRand ∧
      zeroRand 0 ((New 1 16).partLen - 1) = "000000000000000".toList ∧
      checkCharacter (zeroRand 0 ((New 1 16).partLen - 1)) 1 = none ∧
      ∀ (hasBadWord : List Char → Bool) (fuel : Nat),
        Generate (New 1 16) zeroRand hasBadWord fuel = none := by
  have hc : checkCharacter (zeroRand 0 ((New 1 16).partLen - 1)) 1 = none := by rfl
  refine ⟨by decide, by decide, zeroRand_alphabet, by rfl, hc, ?_⟩
  intro hasBadWord fuel
  have hparts : (New 1 16).parts = 1 := rfl
  have hz : ∀ k, zeroRand k ((New 1 16).partLen - 1) = zeroRand 0 ((New 1 16).partLen - 1) :=
    fun _ => rfl
  unfold Generate generateParts
  rw [if_neg (by decide)]
  cases fuel with
  | zero => simp [generateLoop, hparts]
  | succ fuel =>
    rw [generateLoop, if_pos (by rw [hparts]; decide)]
    dsimp only
    rw [hz 0]
    have e : ((0 : Nat) : Int) + 1 = 1 := by norm_num
    rw [e, hc]
    rfl

/-! ## The first part that does not pass -/

theorem checkParts_append_ok (g : Generator) (code : List Char) :
    ∀ (pre rest : List (List Char)) (i : Nat),
      (∀ j part, pre[j]? = some part → partOk g (i + j) part) →
      checkParts g code i (pre ++ rest) = checkParts g code (i + pre.length) rest := by
  intro pre
  induction pre with
  | nil => intro rest i _; rfl
  | cons part pre ih =>
    intro rest i h
    have h0 : partOk g i part := by simpa using h 0 part (by simp)
    rw [List.cons_append, checkParts_cons_ok g code i part _ h0, ih rest (i + 1)]
    · congr 1; simp; omega
    · intro j q hq
      have := h (j + 1) q (by simpa using hq)
      have e : i + 1 + j = i + (j + 1) := by omega
      rwa [e]

theorem checkParts_cons_length (g : Generator) (code : List Char) (i : Nat)
    (part : List Char) (rest : List (List Char)) (h : (part.length : Int) ≠ g.partLen) :
    checkParts g code i (part :: rest) = some (code, some (ValidateError.wrongPartLength i)) := by
  rw [checkParts, if_pos h]

theorem checkParts_cons_mismatch (g : Generator) (code : List Char) (i : Nat)
    (part : List Char) (rest : List (List Char)) (hl : (part.length : Int) = g.partLen)
    (hne : part ≠ []) (chk : List Char)
    (hc : checkCharacter part.dropLast ((i : Int) + 1) = some chk)
    (hs : HasSuffix part chk = false) :
    checkParts g code i (part :: rest) =
      some (code, some (ValidateError.wrongCheckCharacter (i + 1) part chk)) := by
  have h0 : part.length ≠ 0 := fun h => hne (List.length_eq_zero.mp h)
  rw [checkParts, if_neg (by simpa using hl), if_neg h0, ← List.dropLast_eq_take, hc]
  simp [hs]

theorem checkParts_cons_none (g : Generator) (code : List Char) (i : Nat)
    (part : List Char) (rest : List (List Char)) (hl : (part.length : Int) = g.partLen)
    (hc : checkCharacter part.dropLast ((i : Int) + 1) = none) :
    checkParts g code i (part :: rest) = none := by
  rw [checkParts, if_neg (by simpa using hl)]
  by_cases h0 : part.length = 0
  · rw [if_pos h0]
  · rw [if_neg h0, ← List.dropLast_eq_take, hc]

/-- A part of the right length whose checksum is computed passes exactly when the
checksum is its last character. -/
theorem partOk_iff_of_check (g : Generator) (i : Nat) (part chk : List Char)
    (hl : (part.length : Int) = g.partLen)
    (hc : checkCharacter part.dropLast ((i : Int) + 1) = some chk) :
    partOk g i part ↔ HasSuffix part chk = true := by
  obtain ⟨b, rfl, _⟩ := checkCharacter_eq_some hc
  rw [hasSuffix_single]
  constructor
  · rintro ⟨_, b', hb', hc'⟩
    rw [hc] at hc'
    simp only [Option.some.injEq, List.cons.injEq, and_true] at hc'
    rw [hc']; exact hb'
  · intro hb
    exact ⟨hl, b, hb, hc⟩

theorem list_split_at {α : Type} (l : List α) (m : Nat) (x : α) (h : l[m]? = some x) :
    l = l.take m ++ x :: l.drop (m + 1) := by
  have hm : m < l.length := by
    by_contra hge
    rw [List.getElem?_eq_none (by omega)] at h
    simp at h
  have hx : l[m] = x := by
    rw [List.getElem?_eq_getElem hm] at h
    simpa using h
  rw [← hx, ← List.drop_eq_getElem_cons hm, List.take_append_drop]

/-- What the loop over the parts returns when part `m` is the first that does not pass. -/
theorem checkParts_first_failure (g : Generator) (hp : 1 ≤ g.partLen) (code : List Char)
    (parts : List (List Char)) (m : Nat) (part : List Char) (hm : parts[m]? = some part)
    (hpre : ∀ j q, j < m → parts[j]? = some q → partOk g j q) (hbad : ¬ partOk g m part) :
    ((part.length : Int) ≠ g.partLen →
        checkParts g code 0 parts = some (code, some (ValidateError.wrongPartLength m))) ∧
      ((part.length : Int) = g.partLen → ∀ chk,
        checkCharacter part.dropLast ((m : Int) + 1) = some chk →
        chk.isSuffixOf part = false ∧
        checkParts g code 0 parts =
          some (code, some (ValidateError.wrongCheckCharacter (m + 1) part chk))) ∧
      ((part.length : Int) = g.partLen →
        checkCharacter part.dropLast ((m : Int) + 1) = none →
        checkParts g code 0 parts = none) := by
  have hsplit := list_split_at parts m part hm
  have hmlen : m < parts.length := by
    by_contra hge
    rw [List.getElem?_eq_none (by omega)] at hm
    simp at hm
  have hstep : checkParts g code 0 parts
      = checkParts g code m (part :: parts.drop (m + 1)) := by
    conv_lhs => rw [hsplit]
    rw [checkParts_append_ok g code (parts.take m) _ 0]
    · congr 1
      simp [List.length_take]; omega
    · intro j q hq
      have hj : j < m := by
        by_contra hge
        rw [List.getElem?_eq_none (by simp [List.length_take]; omega)] at hq
        simp at hq
      rw [List.getElem?_take_of_lt hj] at hq
      simpa using hpre j q hj hq
  rw [hstep]
  refine ⟨?_, ?_, ?_⟩
  · intro hl
    exact checkParts_cons_length g code m part _ hl
  · intro hl chk hc
    have hs : HasSuffix part chk = false := by
      rw [← Bool.not_eq_true]
      intro hs
      exact hbad ((partOk_iff_of_check g m part chk hl hc).mpr hs)
    have hne : part ≠ [] := by
      intro e; rw [e] at hl; simp at hl; omega
    exact ⟨hs, checkParts_cons_mismatch g code m part _ hl hne chk hc hs⟩
  · intro hl hc
    exact checkParts_cons_none g code m part _ hl hc

theorem chunks_getElem?_lt (p : Nat) (flat : List Char) (k : Nat)
    (hk : k < (chunks p flat).length) : (chunks p flat)[k]? = some (chunk p flat k) := by
  rw [chunks_getElem?, if_pos (by rwa [chunks_length] at hk)]

theorem chunks_getElem?_some (p : Nat) (flat : List Char) (k : Nat) (part : List Char)
    (hk : (chunks p flat)[k]? = some part) :
    k < (chunks p flat).length ∧ part = chunk p flat k := by
  rw [chunks_getElem?] at hk
  split at hk
  · rename_i hlt
    simp only [Option.some.injEq] at hk
    exact ⟨by rwa [chunks_length], hk.symm⟩
  · simp at hk

/-- What `Validate` returns when the number of chunks is `parts` and chunk `m` is the
first that does not pass. -/
theorem validate_first_failure (g : Generator) (hp : 1 ≤ g.partLen) (s : List Char)
    (hcount : ((chunks g.partLen.toNat (normalise s)).length : Int) = g.parts) (m : Nat)
    (hm : m < (chunks g.partLen.toNat (normalise s)).length)
    (hpre : ∀ j, j < m → partOk g j (chunk g.partLen.toNat (normalise s) j))
    (hbad : ¬ partOk g m (chunk g.partLen.toNat (normalise s) m)) :
    (((chunk g.partLen.toNat (normalise s) m).length : Int) ≠ g.partLen →
        Validate g s = some (Join (chunks g.partLen.toNat (normalise s)) separator,
          some (ValidateError.wrongPartLength m))) ∧
      (((chunk g.partLen.toNat (normalise s) m).length : Int) = g.partLen → ∀ chk,
        checkCharacter (chunk g.partLen.toNat (normalise s) m).dropLast ((m : Int) + 1)
          = some chk →
        chk.isSuffixOf (chunk g.partLen.toNat (normalise s) m) = false ∧
        Validate g s = some (Join (chunks g.partLen.toNat (normalise s)) separator,
          some (ValidateError.wrongCheckCharacter (m + 1)
            (chunk g.partLen.toNat (normalise s) m) chk))) ∧
      (((chunk g.partLen.toNat (normalise s) m).length : Int) = g.partLen →
        checkCharacter (chunk g.partLen.toNat (normalise s) m).dropLast ((m : Int) + 1)
          = none →
        Validate g s = none) := by
  have hV : Validate g s = checkParts g (Join (chunks g.partLen.toNat (normalise s)) separator)
      0 (chunks g.partLen.toNat (normalise s)) := by
    unfold Validate
    rw [validateFlat_eq g hp, if_neg (by simpa using hcount)]
  rw [hV]
  refine checkParts_first_failure g hp _ _ m _ (chunks_getElem?_lt _ _ m hm) ?_ hbad
  intro j q hj hq
  obtain ⟨_, rfl⟩ := chunks_getElem?_some _ _ j q hq
  exact hpre j hj

theorem exists_least_of_exists (P : Nat → Prop) :
    ∀ k, P k → ∃ m, m ≤ k ∧ P m ∧ ∀ j, j < m → ¬ P j := by
  intro k
  induction k using Nat.strong_induction_on with
  | _ k ih =>
    intro hk
    by_cases h : ∃ j, j < k ∧ P j
    · obtain ⟨j, hj, hPj⟩ := h
      obtain ⟨m, hm, hPm, hmin⟩ := ih j hj hPj
      exact ⟨m, by omega, hPm, hmin⟩
    · exact ⟨k, le_refl k, hk, fun j hj hPj => h ⟨j, hj, hPj⟩⟩

/-- C14. Fail-fast error selection: for partLen >= 1 and an input whose number of chunks
is `parts`, if some chunk does not pass (wrong length, or a last character that is not
its check character), there is a lowest-numbered such chunk `m` (from 0), and what
`Validate` returns is decided by that chunk alone: the wrong-length error with the
number `m` if its length is wrong, whatever its characters; otherwise the
wrong-check-character error with the 1-based index `m + 1`, the chunk and the check
character computed for it (and nothing when that computation fails).  An input with
the same chunks up to `m` gets the same error. -/
theorem Validate_fail_fast (g : Generator) (hp : 1 ≤ g.partLen) (s : List Char)
    (hcount : ((chunks g.partLen.toNat (normalise s)).length : Int) = g.parts)
    (hfail : ∃ k, k < (chunks g.partLen.toNat (normalise s)).length ∧
      ¬ partOk g k (chunk g.partLen.toNat (normalise s) k)) :
    ∃ m, m < (chunks g.partLen.toNat (normalise s)).length ∧
      (∀ j, j < m → partOk g j (chunk g.partLen.toNat (normalise s) j)) ∧
      ¬ partOk g m (chunk g.partLen.toNat (normalise s) m) ∧
      (((chunk g.partLen.toNat (normalise s) m).length : Int) ≠ g.partLen →
        Validate g s = some (Join (chunks g.partLen.toNat (normalise s)) separator,
          some (ValidateError.wrongPartLength m))) ∧
      (((chunk g.partLen.toNat (normalise s) m).length : Int) = g.partLen → ∀ chk,
        checkCharacter (chunk g.partLen.toNat (normalise s) m).dropLast ((m : Int) + 1)
          = some chk →
        chk.isSuffixOf (chunk g.partLen.toNat (normalise s) m) = false ∧
        Validate g s = some (Join (chunks g.partLen.toNat (normalise s)) separator,
          some (ValidateError.wrongCheckCharacter (m + 1)
            (chunk g.partLen.toNat (normalise s) m) chk))) ∧
      (((chunk g.partLen.toNat (normalise s) m).length : Int) = g.partLen →
        checkCharacter (chunk g.partLen.toNat (normalise s) m).dropLast ((m : Int) + 1)
          = none →
        Validate g s = none) ∧
      ∀ t : List Char, ((chunks g.partLen.toNat (normalise t)).length : Int) = g.parts →
        (∀ j, j ≤ m →
          chunk g.partLen.toNat (normalise t) j = chunk g.partLen.toNat (normalise s) j) →
        (Validate g t).map Prod.snd = (Validate g s).map Prod.snd := by
  obtain ⟨k, hk, hbadk⟩ := hfail
  obtain ⟨m, hmk, hbad, hmin⟩ := exists_least_of_exists
    (fun k => ¬ partOk g k (chunk g.partLen.toNat (normalise s) k)) k hbadk
  have hm : m < (chunks g.partLen.toNat (normalise s)).length := by omega
  have hpre : ∀ j, j < m → partOk g j (chunk g.partLen.toNat (normalise s) j) :=
    fun j hj => not_not.mp (hmin j hj)
  obtain ⟨h1, h2, h3⟩ := validate_first_failure g hp s hcount m hm hpre hbad
  refine ⟨m, hm, hpre, hbad, h1, h2, h3, ?_⟩
  intro t htcount hsame
  have hmt : m < (chunks g.partLen.toNat (normalise t)).length := by
    have : ((chunks g.partLen.toNat (normalise t)).length : Int)
        = ((chunks g.partLen.toNat (normalise s)).length : Int) := by rw [htcount, hcount]
    omega
  have hpret : ∀ j, j < m → partOk g j (chunk g.partLen.toNat (normalise t) j) := by
    intro j hj
    rw [hsame j (by omega)]
    exact hpre j hj
  have hbadt : ¬ partOk g m (chunk g.partLen.toNat (normalise t) m) := by
    rw [hsame m (le_refl m)]
    exact hbad
  obtain ⟨t1, t2, t3⟩ := validate_first_failure g hp t htcount m hmt hpret hbadt
  rw [hsame m (le_refl m)] at t1 t2 t3
  by_cases hl : ((chunk g.partLen.toNat (normalise s) m).length : Int) = g.partLen
  · rcases hc : checkCharacter (chunk g.partLen.toNat (normalise s) m).dropLast
        ((m : Int) + 1) with _ | chk
    · rw [t3 hl hc, h3 hl hc]
    · rw [(t2 hl chk hc).2, (h2 hl chk hc).2]
      rfl
  · rw [t1 hl, h1 hl]
    rfl

set_option maxRecDepth 100000 in
/-- A concrete input whose first chunk passes and whose second chunk ends in the wrong
character: the error is about chunk 2 and carries the check character `M`. -/
theorem Validate_fail_fast_witness :
    ((chunks Default.partLen.toNat (normalise "1K7Q-CTFX".toList)).length : Int)
        = Default.parts ∧
      Validate Default "1K7Q-CTFX".toList =
        some ("1K7Q-CTFX".toList,
          some (ValidateError.wrongCheckCharacter 2 "CTFX".toList "M".toList)) ∧
      ∃ m, m < (chunks Default.partLen.toNat (normalise "1K7Q-CTFX".toList)).length ∧
        (∀ j, j < m →
          partOk Default j (chunk Default.partLen.toNat (normalise "1K7Q-CTFX".toList) j)) ∧
        ¬ partOk Default m (chunk Default.partLen.toNat (normalise "1K7Q-CTFX".toList) m) := by
  have hbad : ¬ partOk Default 1
      (chunk Default.partLen.toNat (normalise "1K7Q-CTFX".toList) 1) := by
    rintro ⟨_, b, hb, hc⟩
    have e1 : chunk Default.partLen.toNat (normalise "1K7Q-CTFX".toList) 1
        = "CTFX".toList := by rfl
    rw [e1] at hb hc
    have e2 : "CTFX".toList.getLast? = some 'X' := by rfl
    have e3 : checkCharacter "CTFX".toList.dropLast (((1 : Nat) : Int) + 1)
        = some ['M'] := by rfl
    rw [e2] at hb
    rw [e3] at hc
    simp only [Option.some.injEq] at hb
    rw [← hb] at hc
    revert hc
    decide
  obtain ⟨m, hm, hpre, hnot, _⟩ := Validate_fail_fast Default (by decide)
    "1K7Q-CTFX".toList (by rfl) ⟨1, by decide, hbad⟩
  exact ⟨by rfl, by rfl, m, hm, hpre, hnot⟩

/-! ## The wrong-length error -/

theorem checkParts_length_error (g : Generator) (code : List Char) :
    ∀ (parts : List (List Char)) (i0 : Nat) (c : List Char) (i : Nat),
      checkParts g code i0 parts = some (c, some (ValidateError.wrongPartLength i)) →
      ∃ (m : Nat) (part : List Char), i = i0 + m ∧ parts[m]? = some part ∧
        (part.length : Int) ≠ g.partLen ∧
        ∀ j q, j < m → parts[j]? = some q → partOk g (i0 + j) q := by
  intro parts
  induction parts with
  | nil =>
    intro i0 c i h
    simp [checkParts] at h
  | cons part rest ih =>
    intro i0 c i h
    by_cases hok : partOk g i0 part
    · rw [checkParts_cons_ok g code i0 part rest hok] at h
      obtain ⟨m, q, hi, hq, hl, hpre⟩ := ih (i0 + 1) c i h
      refine ⟨m + 1, q, by omega, by simpa using hq, hl, ?_⟩
      intro j r hj hr
      cases j with
      | zero =>
        simp only [List.getElem?_cons_zero, Option.some.injEq] at hr
        rw [← hr]; simpa using hok
      | succ j =>
        have := hpre j r (by omega) (by simpa using hr)
        have e : i0 + 1 + j = i0 + (j + 1) := by omega
        rwa [e] at this
    · by_cases hl : (part.length : Int) = g.partLen
      · exfalso
        rcases hc : checkCharacter part.dropLast ((i0 : Int) + 1) with _ | chk
        · rw [checkParts_cons_none g code i0 part rest hl hc] at h
          simp at h
        · have hs : HasSuffix part chk = false := by
            rw [← Bool.not_eq_true]
            intro hs
            exact hok ((partOk_iff_of_check g i0 part chk hl hc).mpr hs)
          by_cases hne : part = []
          · rw [checkParts, if_neg (by simpa using hl), if_pos (by simp [hne])] at h
            simp at h
          · rw [checkParts_cons_mismatch g code i0 part rest hl hne chk hc hs] at h
            simp at h
      · rw [checkParts_cons_length g code i0 part rest hl] at h
        simp only [Option.some.injEq, Prod.mk.injEq, ValidateError.wrongPartLength.injEq] at h
        exact ⟨0, part, by omega, by simp, hl, fun j q hj => by omega⟩

theorem chunk_count_eq_iff (len p : Nat) (hp : 1 ≤ p) (parts : Int) :
    (((len + p - 1) / p : Nat) : Int) = parts ↔
      ((parts - 1) * (p : Int) < (len : Int) ∧ (len : Int) ≤ parts * (p : Int)) := by
  have h := chunk_count_ne_iff len p hp parts
  constructor
  · intro he
    by_contra hcon
    exact (h.mpr (by
      by_cases h1 : (len : Int) ≤ (parts - 1) * (p : Int)
      · exact Or.inl h1
      · right
        by_contra h2
        exact hcon ⟨by omega, by omega⟩)) he
  · rintro ⟨h1, h2⟩
    by_contra hne
    rcases h.mp hne with h3 | h3 <;> omega

/-- C19. Where the wrong-length error arises: for parts >= 1 and partLen >= 1,
`Validate` returns the wrong-length error exactly when the normalised string has more
than (parts-1)*partLen and fewer than parts*partLen characters and each of the first
parts-1 chunks ends in its check character; the number in the error is then parts-1,
the 0-based index of the last chunk. -/
theorem Validate_wrongPartLength_iff (g : Generator) (hparts : 1 ≤ g.parts)
    (hp : 1 ≤ g.partLen) (s : List Char) :
    ((∃ c i, Validate g s = some (c, some (ValidateError.wrongPartLength i))) ↔
      ((g.parts - 1) * g.partLen < ((normalise s).length : Int) ∧
        ((normalise s).length : Int) < g.parts * g.partLen ∧
        ∀ k : Nat, 1 ≤ k → (k : Int) ≤ g.parts - 1 →
          ∃ b, (chunk g.partLen.toNat (normalise s) (k - 1)).getLast? = some b ∧
            checkCharacter ((chunk g.partLen.toNat (normalise s) (k - 1)).take
              (g.partLen.toNat - 1)) (k : Int) = some [b])) ∧
      ∀ c i, Validate g s = some (c, some (ValidateError.wrongPartLength i)) →
        (i : Int) = g.parts - 1 ∧ i + 1 = (chunks g.partLen.toNat (normalise s)).length ∧
          c = Join (chunks g.partLen.toNat (normalise s)) separator := by
  have hp1 : 1 ≤ g.partLen.toNat := by omega
  have hpe : ((g.partLen.toNat : Nat) : Int) = g.partLen := Int.toNat_of_nonneg (by omega)
  have hcnt := chunk_count_eq_iff (normalise s).length g.partLen.toNat hp1 g.parts
  rw [hpe, ← chunks_length] at hcnt
  -- what a wrong-length result of `Validate` says about the chunks
  have hfwd : ∀ c i, Validate g s = some (c, some (ValidateError.wrongPartLength i)) →
      ((chunks g.partLen.toNat (normalise s)).length : Int) = g.parts ∧
        i + 1 = (chunks g.partLen.toNat (normalise s)).length ∧
        ((chunk g.partLen.toNat (normalise s) i).length : Int) ≠ g.partLen ∧
        (∀ j, j < i → partOk g j (chunk g.partLen.toNat (normalise s) j)) ∧
        c = Join (chunks g.partLen.toNat (normalise s)) separator := by
    intro c i h
    unfold Validate at h
    rw [validateFlat_eq g hp] at h
    by_cases hcount : ((chunks g.partLen.toNat (normalise s)).length : Int) = g.parts
    · rw [if_neg (by simpa using hcount)] at h
      obtain ⟨m, part, hi, hm, hl, hpre⟩ := checkParts_length_error g _ _ 0 c i h
      obtain ⟨hmlt, rfl⟩ := chunks_getElem?_some _ _ m part hm
      have him : i = m := by omega
      subst him
      have hb := chunk_bounds g.partLen.toNat hp1 (normalise s) i hmlt
      refine ⟨hcount, ?_, hl, ?_, checkParts_fst g _ _ 0 _ h⟩
      · by_contra hne
        have := hb.2.2 (by omega)
        omega
      · intro j hj
        have := hpre j _ hj (chunks_getElem?_lt _ _ j (by omega))
        simpa using this
    · rw [if_pos (by simpa using hcount)] at h
      simp at h
  refine ⟨⟨?_, ?_⟩, ?_⟩
  · rintro ⟨c, i, h⟩
    obtain ⟨hcount, hi, hl, hpre, _⟩ := hfwd c i h
    obtain ⟨h1, h2⟩ := hcnt.mp hcount
    have hlen : (chunk g.partLen.toNat (normalise s) i).length
        = min g.partLen.toNat ((normalise s).length - i * g.partLen.toNat) := chunk_length _ _ _
    have hmul : ((i * g.partLen.toNat : Nat) : Int) = (g.parts - 1) * g.partLen := by
      push_cast; rw [hpe]
      have : (i : Int) = g.parts - 1 := by omega
      rw [this]
    refine ⟨h1, ?_, ?_⟩
    · have hlt : (normalise s).length - i * g.partLen.toNat < g.partLen.toNat := by
        by_contra hge
        apply hl
        rw [hlen]; omega
      have : g.parts * g.partLen = (g.parts - 1) * g.partLen + g.partLen := by ring
      rw [this, ← hmul]
      omega
    · intro k hk1 hk2
      obtain ⟨hkl, b, hb, hchk⟩ := hpre (k - 1) (by omega)
      refine ⟨b, hb, ?_⟩
      rw [List.dropLast_eq_take] at hchk
      have e1 : (chunk g.partLen.toNat (normalise s) (k - 1)).length - 1
          = g.partLen.toNat - 1 := by omega
      have e2 : (((k - 1 : Nat) : Int) + 1) = (k : Int) := by omega
      rwa [e1, e2] at hchk
  · rintro ⟨h1, h2, hall⟩
    have hcount : ((chunks g.partLen.toNat (normalise s)).length : Int) = g.parts :=
      hcnt.mpr ⟨h1, by omega⟩
    have hm : (chunks g.partLen.toNat (normalise s)).length - 1
        < (chunks g.partLen.toNat (normalise s)).length := by omega
    have hmul : ((((chunks g.partLen.toNat (normalise s)).length - 1) * g.partLen.toNat
        : Nat) : Int) = (g.parts - 1) * g.partLen := by
      push_cast; rw [hpe]
      have : (((chunks g.partLen.toNat (normalise s)).length - 1 : Nat) : Int)
          = g.parts - 1 := by omega
      rw [this]
    have hshort : ((chunk g.partLen.toNat (normalise s)
        ((chunks g.partLen.toNat (normalise s)).length - 1)).length : Int) ≠ g.partLen := by
      rw [chunk_length]
      have : g.parts * g.partLen = (g.parts - 1) * g.partLen + g.partLen := by ring
      rw [this, ← hmul] at h2
      omega
    have hpre : ∀ j, j < (chunks g.partLen.toNat (normalise s)).length - 1 →
        partOk g j (chunk g.partLen.toNat (normalise s) j) := by
      intro j hj
      have hb := chunk_bounds g.partLen.toNat hp1 (normalise s) j (by omega)
      have hfull := hb.2.2 (by omega)
      obtain ⟨b, hb1, hb2⟩ := hall (j + 1) (by omega) (by omega)
      simp only [Nat.add_sub_cancel] at hb1 hb2
      refine ⟨by rw [hfull, hpe], b, hb1, ?_⟩
      rw [List.dropLast_eq_take, hfull]
      exact_mod_cast hb2
    have hbad : ¬ partOk g ((chunks g.partLen.toNat (normalise s)).length - 1)
        (chunk g.partLen.toNat (normalise s)
          ((chunks g.partLen.toNat (normalise s)).length - 1)) := fun h => hshort h.1
    exact ⟨_, _, (validate_first_failure g hp s hcount _ hm hpre hbad).1 hshort⟩
  · intro c i h
    obtain ⟨hcount, hi, _, _, hc⟩ := hfwd c i h
    exact ⟨by omega, hi, hc⟩

/-- The 7-character input `1K7QCTF` under the default configuration: the error names
part 1, the 0-based index of the short last chunk. -/
theorem Validate_wrongPartLength_iff_witness :
    (1 : Int) ≤ Default.parts ∧ (1 : Int) ≤ Default.partLen ∧
      Validate Default "1K7QCTF".toList =
        some ("1K7Q-CTF".toList, some (ValidateError.wrongPartLength 1)) ∧
      ((1 : Nat) : Int) = Default.parts - 1 :=
  ⟨by decide, by decide, by rfl,
    ((Validate_wrongPartLength_iff Default (by decide) (by decide) "1K7QCTF".toList).2
      "1K7Q-CTF".toList 1 (by rfl)).1⟩

/-! ## Idempotence and the alphabet -/

theorem validate_fst (g : Generator) (hp : 1 ≤ g.partLen) (s : List Char)
    (r : List Char × Option ValidateError) (h : Validate g s = some r) :
    r.1 = Join (chunks g.partLen.toNat (normalise s)) separator := by
  unfold Validate at h
  rw [validateFlat_eq g hp] at h
  split at h
  · simp only [Option.some.injEq] at h; rw [← h]
  · exact checkParts_fst g _ _ _ r h

theorem normalise_canonical (p : Nat) (hp : 1 ≤ p) (s : List Char) :
    normalise (Join (chunks p (normalise s)) separator) = normalise s := by
  rw [normalise_Join, chunks_flatten p hp _ (normalise s) (le_refl _)]
  intro seg hseg c hc
  obtain ⟨k, hk⟩ := List.getElem?_of_mem hseg
  obtain ⟨_, rfl⟩ := chunks_getElem?_some _ _ k seg hk
  exact normalise_symbols s c (mem_chunk _ _ _ c hc)

/-- C18. Idempotence: for partLen >= 1, if `Validate` returns the pair (c, e) on some
input, it returns the same pair (c, e) on the canonical string c. -/
theorem Validate_idempotent (g : Generator) (hp : 1 ≤ g.partLen) (s c : List Char)
    (e : Option ValidateError) (h : Validate g s = some (c, e)) :
    Validate g c = some (c, e) := by
  have hc : c = Join (chunks g.partLen.toNat (normalise s)) separator :=
    validate_fst g hp s (c, e) h
  have hn : normalise c = normalise s := by
    rw [hc]; exact normalise_canonical _ (by omega) s
  rw [← h]
  unfold Validate
  rw [hn]

/-- Both a rejected and an accepted input: `ab1z-cd34` gives `AB12-CD34` with an error
for part 1, and so does `AB12-CD34`. -/
theorem Validate_idempotent_witness :
    Validate Default "ab1z-cd34".toList =
        some ("AB12-CD34".toList,
          some (ValidateError.wrongCheckCharacter 1 "AB12".toList "F".toList)) ∧
      Validate Default "AB12-CD34".toList =
        some ("AB12-CD34".toList,
          some (ValidateError.wrongCheckCharacter 1 "AB12".toList "F".toList)) :=
  ⟨by rfl, Validate_idempotent Default (by decide) "ab1z-cd34".toList "AB12-CD34".toList _
    (by rfl)⟩

theorem splitLoop_mem (partLen : Int) :
    ∀ (fuel : Nat) (tmp : List Char) (acc parts : List (List Char)),
      splitLoop partLen fuel tmp acc = some parts →
      ∀ part ∈ parts, part ∈ acc ∨ ∀ c ∈ part, c ∈ tmp := by
  intro fuel
  induction fuel with
  | zero =>
    intro tmp acc parts h part hpart
    cases tmp with
    | nil =>
      simp only [splitLoop, Option.some.injEq] at h
      left; rw [h]; exact hpart
    | cons c cs => simp [splitLoop] at h
  | succ fuel ih =>
    intro tmp acc parts h part hpart
    cases tmp with
    | nil =>
      simp only [splitLoop, Option.some.injEq] at h
      left; rw [h]; exact hpart
    | cons c cs =>
      rw [splitLoop] at h
      generalize (if partLen > ((c :: cs).length : Int) then ((c :: cs).length : Int)
        else partLen) = mx at h
      by_cases hneg : mx < 0
      · rw [if_pos hneg] at h; simp at h
      · rw [if_neg hneg] at h
        rcases ih _ _ _ h part hpart with h1 | h1
        · rcases List.mem_append.mp h1 with h2 | h2
          · exact Or.inl h2
          · right
            simp only [List.mem_singleton] at h2
            intro d hd
            rw [h2] at hd
            exact List.mem_of_mem_take hd
        · right
          intro d hd
          exact List.mem_of_mem_drop (h1 d hd)

theorem IndexRune_of_mem (c : Char) (h : c ∈ symbols) :
    IndexRune symbols c ≠ -1 ∧ 0 ≤ IndexRune symbols c ∧ IndexRune symbols c < 32 := by
  obtain ⟨h0, h1⟩ := IndexRune_range c h
  exact ⟨by omega, h0, by omega⟩

/-- C15. Unknown symbols are unreachable in validation: every character of the
normalised string is one of the 32 alphabet symbols, and so is every character of
every part that the split loop produces; hence each lookup `strings.IndexRune(symbols, r)`
that `checkCharacter` makes for `Validate` finds its symbol and never returns -1. -/
theorem Validate_symbols_known (g : Generator) (s : List Char) :
    (∀ c, c ∈ normalise s →
        c ∈ symbols ∧ IndexRune symbols c ≠ -1 ∧
          0 ≤ IndexRune symbols c ∧ IndexRune symbols c < 32) ∧
      ∀ parts, splitLoop g.partLen (normalise s).length (normalise s) [] = some parts →
        ∀ part, part ∈ parts → ∀ c, c ∈ part.take (part.length - 1) →
          c ∈ symbols ∧ IndexRune symbols c ≠ -1 ∧
            0 ≤ IndexRune symbols c ∧ IndexRune symbols c < 32 := by
  have h1 : ∀ c, c ∈ normalise s →
      c ∈ symbols ∧ IndexRune symbols c ≠ -1 ∧
        0 ≤ IndexRune symbols c ∧ IndexRune symbols c < 32 :=
    fun c hc => ⟨normalise_symbols s c hc, IndexRune_of_mem c (normalise_symbols s c hc)⟩
  refine ⟨h1, ?_⟩
  intro parts hparts part hpart c hc
  rcases splitLoop_mem _ _ _ _ _ hparts part hpart with h2 | h2
  · simp at h2
  · exact h1 c (h2 c (List.mem_of_mem_take hc))

/-- The letters `o`, `i`, `z`, `s` and the punctuation of `oi-zs?` all disappear: the
normalised string is `0125`, and its characters have the indices 0, 1, 2 and 5. -/
theorem Validate_symbols_known_witness :
    normalise "oi-zs?".toList = "0125".toList ∧
      (normalise "oi-zs?".toList).map (IndexRune symbols) = [0, 1, 2, 5] ∧
      ∀ c, c ∈ normalise "oi-zs?".toList →
        c ∈ symbols ∧ IndexRune symbols c ≠ -1 ∧
          0 ≤ IndexRune symbols c ∧ IndexRune symbols c < 32 :=
  ⟨by rfl, by rfl, (Validate_symbols_known Default "oi-zs?".toList).1⟩

/-! ## Algebra of the checksum -/

theorem referenceAccumulate_cons (c : Char) (l : List Char) (a : Int) :
    referenceAccumulate (c :: l) a = referenceAccumulate l (a * 19 + IndexRune symbols c) := rfl

theorem referenceAccumulate_append (l1 l2 : List Char) (a : Int) :
    referenceAccumulate (l1 ++ l2) a = referenceAccumulate l2 (referenceAccumulate l1 a) := by
  unfold referenceAccumulate
  rw [List.foldl_append]

theorem referenceAccumulate_linear (l : List Char) :
    ∀ a : Int, referenceAccumulate l a = a * 19 ^ l.length + referenceAccumulate l 0 := by
  induction l with
  | nil => intro a; simp [referenceAccumulate]
  | cons c l ih =>
    intro a
    rw [referenceAccumulate_cons, referenceAccumulate_cons, ih (a * 19 + IndexRune symbols c),
      ih (0 * 19 + IndexRune symbols c), List.length_cons, pow_succ]
    ring

theorem referenceAccumulate_sub (l : List Char) (a b : Int) :
    referenceAccumulate l a - referenceAccumulate l b = (a - b) * 19 ^ l.length := by
  rw [referenceAccumulate_linear l a, referenceAccumulate_linear l b]
  ring

/-- Replacing one symbol of the body moves the accumulator by the difference of the two
indices times a power of 19. -/
theorem referenceAccumulate_replace (front back : List Char) (old x : Char) (a : Int) :
    referenceAccumulate (front ++ x :: back) a - referenceAccumulate (front ++ old :: back) a
      = (IndexRune symbols x - IndexRune symbols old) * 19 ^ back.length := by
  rw [referenceAccumulate_append, referenceAccumulate_append, referenceAccumulate_cons,
    referenceAccumulate_cons, referenceAccumulate_sub]
  ring

theorem dvd_of_dvd_mul_pow (d : Int) (n : Nat) (h : (31 : Int) ∣ d * 19 ^ n) : (31 : Int) ∣ d := by
  have hprime : Prime (31 : Int) := Int.prime_iff_natAbs_prime.mpr (by norm_num)
  rcases hprime.dvd_or_dvd h with h1 | h1
  · exact h1
  · exfalso
    have := hprime.dvd_of_dvd_pow h1
    omega

theorem emod_eq_iff_of_sub (a b d : Int) (n : Nat) (h : a - b = d * 19 ^ n) :
    a % 31 = b % 31 ↔ (31 : Int) ∣ d := by
  constructor
  · intro he
    apply dvd_of_dvd_mul_pow d n
    rw [← h]
    omega
  · intro hd
    have : (31 : Int) ∣ a - b := by rw [h]; exact Dvd.dvd.mul_right hd _
    omega

theorem symbols_get?_inj : ∀ i, i < 32 → ∀ j, j < 32 →
    symbols.get? i = symbols.get? j → i = j := by
  decide

/-- Within the range where the accumulator cannot wrap, the check character is the
symbol at index `referenceAccumulate body position % 31`. -/
theorem checkCharacter_small (body : List Char) (position : Int)
    (hsym : ∀ c ∈ body, c ∈ symbols) (hlen : body.length ≤ 12) (h1 : 1 ≤ position)
    (h2 : position ≤ 1000) :
    ∃ b, symbols.get? (referenceAccumulate body position % 31).toNat = some b ∧
      checkCharacter body position = some [b] := by
  rw [checkCharacter_eq_reference body position hsym hlen h1 h2]
  have hlt : (referenceAccumulate body position % 31).toNat < symbols.length := by
    have hl : symbols.length = 32 := rfl
    have := Int.emod_lt_of_pos (referenceAccumulate body position) (show (0 : Int) < 31 by norm_num)
    have := Int.emod_nonneg (referenceAccumulate body position) (show (31 : Int) ≠ 0 by norm_num)
    omega
  refine ⟨symbols.get ⟨_, hlt⟩, List.get?_eq_get hlt, ?_⟩
  unfold referenceCheck
  simp only
  change Option.map _ (symbols.get? (referenceAccumulate body position % 31).toNat) = _
  rw [List.get?_eq_get hlt]
  rfl

theorem checkCharacter_eq_iff (body1 body2 : List Char) (p1 p2 : Int)
    (hsym1 : ∀ c ∈ body1, c ∈ symbols) (hlen1 : body1.length ≤ 12) (h11 : 1 ≤ p1)
    (h12 : p1 ≤ 1000) (hsym2 : ∀ c ∈ body2, c ∈ symbols) (hlen2 : body2.length ≤ 12)
    (h21 : 1 ≤ p2) (h22 : p2 ≤ 1000) :
    checkCharacter body1 p1 = checkCharacter body2 p2 ↔
      referenceAccumulate body1 p1 % 31 = referenceAccumulate body2 p2 % 31 := by
  obtain ⟨b1, hb1, hc1⟩ := checkCharacter_small body1 p1 hsym1 hlen1 h11 h12
  obtain ⟨b2, hb2, hc2⟩ := checkCharacter_small body2 p2 hsym2 hlen2 h21 h22
  rw [hc1, hc2]
  have hr1 := Int.emod_lt_of_pos (referenceAccumulate body1 p1) (show (0 : Int) < 31 by norm_num)
  have hn1 := Int.emod_nonneg (referenceAccumulate body1 p1) (show (31 : Int) ≠ 0 by norm_num)
  have hr2 := Int.emod_lt_of_pos (referenceAccumulate body2 p2) (show (0 : Int) < 31 by norm_num)
  have hn2 := Int.emod_nonneg (referenceAccumulate body2 p2) (show (31 : Int) ≠ 0 by norm_num)
  constructor
  · intro h
    simp only [Option.some.injEq, List.cons.injEq, and_true] at h
    have := symbols_get?_inj (referenceAccumulate body1 p1 % 31).toNat (by omega)
      (referenceAccumulate body2 p2 % 31).toNat (by omega) (by rw [hb1, hb2, h])
    omega
  · intro h
    rw [h, hb2] at hb1
    simp only [Option.some.injEq] at hb1
    rw [hb1]

/-- C16. Position sensitivity: for a body of at most 12 alphabet symbols and positions
p and q between 1 and 1000, the check characters at p and at q are equal exactly when
p and q are congruent modulo 31; so two different positions among the first 31 give
different check characters, and positions 1 and 32 give the same one. -/
theorem checkCharacter_position (body : List Char) (hsym : ∀ c ∈ body, c ∈ symbols)
    (hlen : body.length ≤ 12) (p q : Int) (hp1 : 1 ≤ p) (hp2 : p ≤ 1000) (hq1 : 1 ≤ q)
    (hq2 : q ≤ 1000) :
    (checkCharacter body p = checkCharacter body q ↔ p % 31 = q % 31) ∧
      (p ≤ 31 → q ≤ 31 → p ≠ q → checkCharacter body p ≠ checkCharacter body q) ∧
      checkCharacter body 1 = checkCharacter body 32 := by
  have key : ∀ a b : Int, 1 ≤ a → a ≤ 1000 → 1 ≤ b → b ≤ 1000 →
      (checkCharacter body a = checkCharacter body b ↔ a % 31 = b % 31) := by
    intro a b ha1 ha2 hb1 hb2
    rw [checkCharacter_eq_iff body body a b hsym hlen ha1 ha2 hsym hlen hb1 hb2,
      emod_eq_iff_of_sub _ _ (a - b) body.length (referenceAccumulate_sub body a b)]
    constructor <;> intro h <;> omega
  refine ⟨key p q hp1 hp2 hq1 hq2, ?_, ?_⟩
  · intro hp31 hq31 hne h
    have := (key p q hp1 hp2 hq1 hq2).mp h
    omega
  · exact (key 1 32 (by norm_num) (by norm_num) (by norm_num) (by norm_num)).mpr (by norm_num)

/-- The body `1K7` gets `Q` at position 1, `1` at position 2 and `Q` again at position 32. -/
theorem checkCharacter_position_witness :
    checkCharacter "1K7".toList 1 = some "Q".toList ∧
      checkCharacter "1K7".toList 2 = some "1".toList ∧
      checkCharacter "1K7".toList 32 = some "Q".toList ∧
      checkCharacter "1K7".toList 1 ≠ checkCharacter "1K7".toList 2 :=
  ⟨by rfl, by rfl, by rfl,
    (checkCharacter_position "1K7".toList (by decide) (by decide) 1 2 (by decide) (by decide)
      (by decide) (by decide)).2.1 (by decide) (by decide) (by decide)⟩

/-! ## The check character is never `Y` -/

theorem symbols_get?_ne_Y : ∀ i, i < 31 → symbols.get? i ≠ some 'Y' := by decide

theorem checkCharacter_index (code : List Char) (n : Int) (chk : List Char)
    (h : checkCharacter code n = some chk) :
    ∃ i b, i < 31 ∧ symbols.get? i = some b ∧ chk = [b] ∧ b ≠ 'Y' := by
  unfold checkCharacter at h
  simp only at h
  rw [length_eq] at h
  split at h
  · rename_i hnn
    have hlt := Int.tmod_lt_of_pos (checkAccumulate code n) (show (0 : Int) < 31 by norm_num)
    have hi : (Int.tmod (checkAccumulate code n) 31).toNat < 31 := by omega
    rcases hb : symbols.get? (Int.tmod (checkAccumulate code n) 31).toNat with _ | b
    · rw [hb] at h; simp at h
    · rw [hb] at h
      simp only [Option.map_some', Option.some.injEq] at h
      refine ⟨_, b, hi, hb, h.symm, ?_⟩
      intro hY
      rw [hY] at hb
      exact symbols_get?_ne_Y _ hi hb
  · simp at h

theorem partOk_last_ne_Y (g : Generator) (i : Nat) (part : List Char) (h : partOk g i part) :
    part.getLast? ≠ some 'Y' := by
  obtain ⟨_, b, hb, hc⟩ := h
  obtain ⟨_, b', _, _, hbb, hY⟩ := checkCharacter_index _ _ _ hc
  simp only [List.cons.injEq, and_true] at hbb
  rw [hb, hbb]
  intro h
  simp only [Option.some.injEq] at h
  exact hY h

theorem validate_none_cases (g : Generator) (hp : 1 ≤ g.partLen) (s : List Char)
    (hnone : Validate g s = none) :
    ∃ (k : Nat), (k : Int) < g.parts ∧ k < (chunks g.partLen.toNat (normalise s)).length ∧
      ((chunk g.partLen.toNat (normalise s) k).length : Int) = g.partLen ∧
      checkCharacter (chunk g.partLen.toNat (normalise s) k).dropLast ((k : Int) + 1) = none := by
  have hp1 : 1 ≤ g.partLen.toNat := by omega
  unfold Validate at hnone
  rw [validateFlat_eq g hp] at hnone
  split at hnone
  · simp at hnone
  · rename_i hcount
    have hne : ∀ part ∈ chunks g.partLen.toNat (normalise s), part ≠ [] := by
      intro part hpart
      obtain ⟨k, hk⟩ := List.getElem?_of_mem hpart
      obtain ⟨hlt, rfl⟩ := chunks_getElem?_some _ _ k part hk
      have := (chunk_bounds _ hp1 _ k hlt).1
      intro e; rw [e] at this; simp at this
    obtain ⟨j, part, h1, h2, h3⟩ := checkParts_none g _ _ 0 hne hnone
    obtain ⟨hlt, rfl⟩ := chunks_getElem?_some _ _ j part h1
    have hcount2 : ((chunks g.partLen.toNat (normalise s)).length : Int) = g.parts :=
      not_not.mp hcount
    exact ⟨j, by omega, hlt, h2, by simpa using h3⟩

theorem validate_returns_of_small (g : Generator) (hp : 1 ≤ g.partLen) (h13 : g.partLen ≤ 13)
    (hparts : g.parts ≤ 1000) (s : List Char) : Validate g s ≠ none := by
  intro hn
  obtain ⟨k, hkp, hk, hl, hc⟩ := validate_none_cases g hp s hn
  refine checkCharacter_ne_none_of_small _ _ ?_ ?_ (by omega) (by omega) hc
  · intro c hcm
    exact normalise_symbols s c (mem_chunk _ _ _ _ (List.mem_of_mem_dropLast hcm))
  · rw [List.length_dropLast]; omega

/-- C20. The check character is never `Y`: on a body of at most 12 alphabet symbols at a
position from 1 to 1000 `checkCharacter` returns the symbol at an index from 0 to 30.
So, for 2 <= partLen <= 13, an input whose normalised string has a chunk ending in
`Y` is never accepted by `Validate` (and gets an error when parts <= 1000), and no
segment of a generated code ends in `Y`. -/
theorem checkCharacter_never_Y (g : Generator) (h2 : 2 ≤ g.partLen) (h13 : g.partLen ≤ 13) :
    (∀ (body : List Char) (position : Int), (∀ c ∈ body, c ∈ symbols) → body.length ≤ 12 →
        1 ≤ position → position ≤ 1000 →
        ∃ i b, i < 31 ∧ symbols.get? i = some b ∧ checkCharacter body position = some [b] ∧
          b ≠ 'Y') ∧
      (∀ (s : List Char) (k : Nat), k < (chunks g.partLen.toNat (normalise s)).length →
        (chunk g.partLen.toNat (normalise s) k).getLast? = some 'Y' →
        (∀ c, Validate g s ≠ some (c, none)) ∧
          (g.parts ≤ 1000 → ∃ c e, Validate g s = some (c, some e))) ∧
      ∀ (randString : Nat → Int → List Char) (hasBadWord : List Char → Bool) (fuel : Nat)
        (c : List Char), RandAlphabet randString →
        Generate g randString hasBadWord fuel = some c →
        ∃ segs, generateParts g randString hasBadWord fuel = some segs ∧
          c = Join segs separator ∧ ∀ seg ∈ segs, seg.getLast? ≠ some 'Y' := by
  have hp : 1 ≤ g.partLen := by omega
  refine ⟨?_, ?_, ?_⟩
  · intro body position hsym hlen h1 h1000
    rcases hc : checkCharacter body position with _ | chk
    · exact absurd hc (checkCharacter_ne_none_of_small body position hsym hlen h1 h1000)
    · obtain ⟨i, b, hi, hb, hchk, hY⟩ := checkCharacter_index _ _ _ hc
      exact ⟨i, b, hi, hb, by rw [hchk], hY⟩
  · intro s k hk hY
    have hnot : ∀ c, Validate g s ≠ some (c, none) := by
      intro c hv
      unfold Validate at hv
      obtain ⟨_, _, hall⟩ := (validateFlat_ok_iff g hp _ c).mp hv
      exact partOk_last_ne_Y g k _ (hall k hk) hY
    refine ⟨hnot, ?_⟩
    intro hparts
    rcases hv : Validate g s with _ | ⟨c, e⟩
    · exact absurd hv (validate_returns_of_small g hp h13 hparts s)
    · cases e with
      | none => exact absurd hv (hnot c)
      | some e => exact ⟨c, e, rfl⟩
  · intro randString hasBadWord fuel c hrand hgen
    unfold Generate at hgen
    obtain ⟨segs, hsegs, rfl⟩ := Option.map_eq_some'.mp hgen
    obtain ⟨_, hok⟩ := generateParts_segments g randString hasBadWord hrand hp fuel segs hsegs
    refine ⟨segs, hsegs, rfl, ?_⟩
    intro seg hseg
    obtain ⟨j, hj⟩ := List.getElem?_of_mem hseg
    exact partOk_last_ne_Y g j seg (hok j seg hj).1

set_option maxRecDepth 100000 in
/-- The code `1K7Q-CTFM` with its first check character replaced by `Y` is rejected. -/
theorem checkCharacter_never_Y_witness :
    (2 : Int) ≤ Default.partLen ∧ Default.partLen ≤ 13 ∧
      (chunk Default.partLen.toNat (normalise "1K7Y-CTFM".toList) 0).getLast? = some 'Y' ∧
      (∀ c, Validate Default "1K7Y-CTFM".toList ≠ some (c, none)) ∧
      Validate Default "1K7Y-CTFM".toList =
        some ("1K7Y-CTFM".toList,
          some (ValidateError.wrongCheckCharacter 1 "1K7Y".toList "Q".toList)) :=
  ⟨by decide, by decide, by rfl,
    ((checkCharacter_never_Y Default (by decide) (by decide)).2.1 "1K7Y-CTFM".toList 0
      (by decide) (by rfl)).1, by rfl⟩

/-! ## Changing one body character -/

theorem IndexRune_inj : ∀ c ∈ symbols, ∀ d ∈ symbols,
    IndexRune symbols c = IndexRune symbols d → c = d := by
  decide

theorem IndexRune_ends : ∀ c ∈ symbols,
    (IndexRune symbols c = 0 ↔ c = '0') ∧ (IndexRune symbols c = 31 ↔ c = 'Y') := by
  decide

/-- On a body of at most 12 symbols, replacing the symbol `old` at place `j` by `x`
leaves the check character unchanged exactly when `x = old` or the two symbols are
`0` and `Y`. -/
theorem checkCharacter_set_iff (body : List Char) (j : Nat) (old x : Char) (position : Int)
    (hget : body[j]? = some old) (hsym : ∀ c ∈ body, c ∈ symbols) (hx : x ∈ symbols)
    (hlen : body.length ≤ 12) (h1 : 1 ≤ position) (h2 : position ≤ 1000) :
    checkCharacter (body.set j x) position = checkCharacter body position ↔
      (x = old ∨ (old = '0' ∧ x = 'Y') ∨ (old = 'Y' ∧ x = '0')) := by
  have hj : j < body.length := by
    by_contra hge
    rw [List.getElem?_eq_none (by omega)] at hget
    simp at hget
  have hold : old ∈ symbols := hsym old (List.getElem?_mem hget)
  have hsym' : ∀ c ∈ body.set j x, c ∈ symbols := by
    intro c hc
    rcases List.mem_or_eq_of_mem_set hc with h | h
    · exact hsym c h
    · rw [h]; exact hx
  have hbody := list_split_at body j old hget
  have hbody' : body.set j x = body.take j ++ x :: body.drop (j + 1) := by
    rw [List.set_eq_take_append_cons_drop, if_pos hj]
  rw [checkCharacter_eq_iff _ _ position position hsym' (by rw [List.length_set]; exact hlen)
    h1 h2 hsym hlen h1 h2]
  have hsub : referenceAccumulate (body.set j x) position - referenceAccumulate body position
      = (IndexRune symbols x - IndexRune symbols old) * 19 ^ (body.drop (j + 1)).length := by
    have e1 : referenceAccumulate body position
        = referenceAccumulate (body.take j ++ old :: body.drop (j + 1)) position :=
      congrArg (fun l => referenceAccumulate l position) hbody
    rw [hbody', e1]
    exact referenceAccumulate_replace _ _ old x position
  rw [emod_eq_iff_of_sub _ _ _ _ hsub]
  obtain ⟨hx0, hx1⟩ := IndexRune_range x hx
  obtain ⟨ho0, ho1⟩ := IndexRune_range old hold
  obtain ⟨hxz, hxy⟩ := IndexRune_ends x hx
  obtain ⟨hoz, hoy⟩ := IndexRune_ends old hold
  constructor
  · intro hd
    have hcases : IndexRune symbols x = IndexRune symbols old ∨
        (IndexRune symbols old = 0 ∧ IndexRune symbols x = 31) ∨
        (IndexRune symbols old = 31 ∧ IndexRune symbols x = 0) := by omega
    rcases hcases with h | ⟨h3, h4⟩ | ⟨h3, h4⟩
    · exact Or.inl (IndexRune_inj x hx old hold h)
    · exact Or.inr (Or.inl ⟨hoz.mp h3, hxy.mp h4⟩)
    · exact Or.inr (Or.inr ⟨hoy.mp h3, hxz.mp h4⟩)
  · rintro (h | ⟨h3, h4⟩ | ⟨h3, h4⟩)
    · rw [h]; simp
    · rw [hoz.mpr h3, hxy.mpr h4]; norm_num
    · rw [hoy.mpr h3, hxz.mpr h4]; norm_num

/-- C13. Single-character mutation detection: for 2 <= partLen <= 13 and
1 <= parts <= 1000, take an input that validates successfully, with canonical code c,
and replace one body character (character j of segment k, not the last of its segment)
of c by a different alphabet symbol x.  `Validate` on the changed code returns the
wrong-check-character error for segment k (1-based index k+1), except when the change
turns `0` into `Y` or `Y` into `0`, where the changed code validates successfully. -/
theorem Validate_detects_mutation (g : Generator) (h2 : 2 ≤ g.partLen) (h13 : g.partLen ≤ 13)
    (hparts1 : 1 ≤ g.parts) (hparts2 : g.parts ≤ 1000) (s c : List Char)
    (hv : Validate g s = some (c, none)) (k j : Nat) (hk : (k : Int) < g.parts)
    (hj : (j : Int) + 1 < g.partLen) (old x : Char)
    (hold : (chunk g.partLen.toNat (normalise s) k)[j]? = some old) (hx : x ∈ symbols)
    (hne : x ≠ old) :
    c = Join (chunks g.partLen.toNat (normalise s)) separator ∧
      (((old = '0' ∧ x = 'Y') ∨ (old = 'Y' ∧ x = '0')) →
        Validate g (mutateCode g.partLen.toNat (normalise s) k j x) =
          some (mutateCode g.partLen.toNat (normalise s) k j x, none)) ∧
      (¬ ((old = '0' ∧ x = 'Y') ∨ (old = 'Y' ∧ x = '0')) →
        ∃ chk, checkCharacter (mutateChunk g.partLen.toNat (normalise s) k j x).dropLast
            ((k : Int) + 1) = some chk ∧
          Validate g (mutateCode g.partLen.toNat (normalise s) k j x) =
            some (mutateCode g.partLen.toNat (normalise s) k j x,
              some (ValidateError.wrongCheckCharacter (k + 1)
                (mutateChunk g.partLen.toNat (normalise s) k j x) chk))) := by
  have hp : 1 ≤ g.partLen := by omega
  have hp1 : 1 ≤ g.partLen.toNat := by omega
  have hpe : ((g.partLen.toNat : Nat) : Int) = g.partLen := Int.toNat_of_nonneg (by omega)
  have hvf := hv
  unfold Validate at hvf
  obtain ⟨hcount, hc, hall⟩ := (validateFlat_ok_iff g hp _ c).mp hvf
  have hkc : k < (chunks g.partLen.toNat (normalise s)).length := by omega
  -- the segment that is changed, split into body and check character
  obtain ⟨hl, b, hb, hchk⟩ := hall k hkc
  have hseg := List.dropLast_append_getLast? b hb
  have hbl : (chunk g.partLen.toNat (normalise s) k).dropLast.length + 1
      = g.partLen.toNat := by
    rw [List.length_dropLast]; omega
  have hjb : j < (chunk g.partLen.toNat (normalise s) k).dropLast.length := by omega
  have hbsym : ∀ d ∈ (chunk g.partLen.toNat (normalise s) k).dropLast, d ∈ symbols :=
    fun d hd => normalise_symbols s d (mem_chunk _ _ _ _ (List.mem_of_mem_dropLast hd))
  have hbold : (chunk g.partLen.toNat (normalise s) k).dropLast[j]? = some old := by
    rw [← hseg, List.getElem?_append_left hjb] at hold
    exact hold
  have hmut : mutateChunk g.partLen.toNat (normalise s) k j x
      = (chunk g.partLen.toNat (normalise s) k).dropLast.set j x ++ [b] := by
    unfold mutateChunk
    conv_lhs => rw [← hseg]
    exact List.set_append_left j x hjb
  have hmlen : ((mutateChunk g.partLen.toNat (normalise s) k j x).length : Int)
      = g.partLen := by
    unfold mutateChunk
    rw [List.length_set]; exact hl
  have hmsym : ∀ d ∈ mutateChunk g.partLen.toNat (normalise s) k j x, d ∈ symbols := by
    intro d hd
    unfold mutateChunk at hd
    rcases List.mem_or_eq_of_mem_set hd with h | h
    · exact normalise_symbols s d (mem_chunk _ _ _ _ h)
    · rw [h]; exact hx
  have hmok : partOk g k (mutateChunk g.partLen.toNat (normalise s) k j x) ↔
      ((old = '0' ∧ x = 'Y') ∨ (old = 'Y' ∧ x = '0')) := by
    have hiff := checkCharacter_set_iff _ j old x ((k : Int) + 1) hbold hbsym hx (by omega)
      (by omega) (by omega)
    rw [hchk] at hiff
    have hex : (x = old ∨ (old = '0' ∧ x = 'Y') ∨ (old = 'Y' ∧ x = '0')) ↔
        ((old = '0' ∧ x = 'Y') ∨ (old = 'Y' ∧ x = '0')) := by
      constructor
      · rintro (h | h)
        · exact absurd h hne
        · exact h
      · exact Or.inr
    rw [← hex, ← hiff]
    constructor
    · rintro ⟨_, b', hb', hc'⟩
      rw [hmut, List.getLast?_concat] at hb'
      rw [hmut, List.dropLast_concat] at hc'
      simp only [Option.some.injEq] at hb'
      rw [hb']; exact hc'
    · intro h
      refine ⟨hmlen, b, ?_, ?_⟩
      · rw [hmut, List.getLast?_concat]
      · rw [hmut, List.dropLast_concat]; exact h
  -- the parts of the changed code
  have hget : ∀ m q, ((chunks g.partLen.toNat (normalise s)).set k
      (mutateChunk g.partLen.toNat (normalise s) k j x))[m]? = some q →
      (m = k ∧ q = mutateChunk g.partLen.toNat (normalise s) k j x) ∨
        (m ≠ k ∧ m < (chunks g.partLen.toNat (normalise s)).length ∧
          q = chunk g.partLen.toNat (normalise s) m) := by
    intro m q hq
    rw [List.getElem?_set] at hq
    by_cases hkm : k = m
    · rw [if_pos hkm, if_pos hkc] at hq
      simp only [Option.some.injEq] at hq
      exact Or.inl ⟨hkm.symm, hq.symm⟩
    · rw [if_neg hkm] at hq
      obtain ⟨hlt, hqe⟩ := chunks_getElem?_some _ _ m q hq
      exact Or.inr ⟨fun e => hkm e.symm, hlt, hqe⟩
  have hfull : ∀ q ∈ (chunks g.partLen.toNat (normalise s)).set k
      (mutateChunk g.partLen.toNat (normalise s) k j x), q.length = g.partLen.toNat := by
    intro q hq
    obtain ⟨m, hm⟩ := List.getElem?_of_mem hq
    rcases hget m q hm with ⟨_, rfl⟩ | ⟨_, hlt, rfl⟩
    · omega
    · have := (hall m hlt).1
      omega
  have hsym : ∀ q ∈ (chunks g.partLen.toNat (normalise s)).set k
      (mutateChunk g.partLen.toNat (normalise s) k j x), ∀ d ∈ q, d ∈ symbols := by
    intro q hq
    obtain ⟨m, hm⟩ := List.getElem?_of_mem hq
    rcases hget m q hm with ⟨_, rfl⟩ | ⟨_, _, rfl⟩
    · exact hmsym
    · exact fun d hd => normalise_symbols s d (mem_chunk _ _ _ _ hd)
  have hV : Validate g (mutateCode g.partLen.toNat (normalise s) k j x) =
      checkParts g (mutateCode g.partLen.toNat (normalise s) k j x) 0
        ((chunks g.partLen.toNat (normalise s)).set k
          (mutateChunk g.partLen.toNat (normalise s) k j x)) := by
    unfold Validate
    rw [validateFlat_eq g hp]
    have hn : normalise (mutateCode g.partLen.toNat (normalise s) k j x)
        = ((chunks g.partLen.toNat (normalise s)).set k
          (mutateChunk g.partLen.toNat (normalise s) k j x)).flatten := by
      unfold mutateCode
      exact normalise_Join _ hsym
    rw [hn, chunks_flatten_of_full _ hp1 _ hfull, List.length_set,
      if_neg (by simpa using hcount)]
    rfl
  have hpre : ∀ m q, m < k → ((chunks g.partLen.toNat (normalise s)).set k
      (mutateChunk g.partLen.toNat (normalise s) k j x))[m]? = some q → partOk g m q := by
    intro m q hmk hq
    rcases hget m q hq with ⟨hm, _⟩ | ⟨_, hlt, rfl⟩
    · omega
    · exact hall m hlt
  refine ⟨hc, ?_, ?_⟩
  · intro hex
    rw [hV, checkParts_ok_iff]
    refine ⟨rfl, ?_⟩
    intro m q hq
    rw [Nat.zero_add]
    rcases hget m q hq with ⟨rfl, rfl⟩ | ⟨_, hlt, rfl⟩
    · exact hmok.mpr hex
    · exact hall m hlt
  · intro hnex
    have hbad : ¬ partOk g k (mutateChunk g.partLen.toNat (normalise s) k j x) :=
      fun h => hnex (hmok.mp h)
    rcases hcc : checkCharacter (mutateChunk g.partLen.toNat (normalise s) k j x).dropLast
        ((k : Int) + 1) with _ | chk
    · exfalso
      refine checkCharacter_ne_none_of_small _ _ ?_ ?_ (by omega) (by omega) hcc
      · exact fun d hd => hmsym d (List.mem_of_mem_dropLast hd)
      · rw [List.length_dropLast]; omega
    · refine ⟨chk, rfl, ?_⟩
      rw [hV]
      exact ((checkParts_first_failure g hp _ _ k _ (List.getElem?_set_self (by
        exact hkc)) hpre hbad).2.1 hmlen chk hcc).2

set_option maxRecDepth 100000 in
/-- The code `0008-CTFM` validates; with its first character changed to `Y` it still
validates, and with its first character changed to `1` it gets the error for part 1. -/
theorem Validate_detects_mutation_witness :
    Validate Default "0008-CTFM".toList = some ("0008-CTFM".toList, none) ∧
      mutateCode Default.partLen.toNat (normalise "0008-CTFM".toList) 0 0 'Y'
        = "Y008-CTFM".toList ∧
      Validate Default (mutateCode Default.partLen.toNat (normalise "0008-CTFM".toList) 0 0 'Y')
        = some (mutateCode Default.partLen.toNat (normalise "0008-CTFM".toList) 0 0 'Y', none) ∧
      ∃ chk, checkCharacter
          (mutateChunk Default.partLen.toNat (normalise "0008-CTFM".toList) 0 0 '1').dropLast
          (((0 : Nat) : Int) + 1) = some chk ∧
        Validate Default
            (mutateCode Default.partLen.toNat (normalise "0008-CTFM".toList) 0 0 '1') =
          some (mutateCode Default.partLen.toNat (normalise "0008-CTFM".toList) 0 0 '1',
            some (ValidateError.wrongCheckCharacter (0 + 1)
              (mutateChunk Default.partLen.toNat (normalise "0008-CTFM".toList) 0 0 '1')
              chk)) :=
  ⟨by rfl, by rfl,
    (Validate_detects_mutation Default (by decide) (by decide) (by decide) (by decide)
      "0008-CTFM".toList "0008-CTFM".toList (by rfl) 0 0 (by decide) (by decide) '0' 'Y'
      (by rfl) (by decide) (by decide)).2.1 (Or.inl ⟨rfl, rfl⟩),
    (Validate_detects_mutation Default (by decide) (by decide) (by decide) (by decide)
      "0008-CTFM".toList "0008-CTFM".toList (by rfl) 0 0 (by decide) (by decide) '0' '1'
      (by rfl) (by decide) (by decide)).2.2 (by decide)⟩

/-! ## Filter and retry -/

theorem take_set_self {α : Type} (l : List α) (i : Nat) (a : α) :
    (l.set i a).take i = l.take i := by
  apply List.ext_getElem?
  intro j
  by_cases hj : j < i
  · rw [List.getElem?_take_of_lt hj, List.getElem?_take_of_lt hj,
      List.getElem?_set_ne (by omega)]
  · rw [List.getElem?_eq_none (by simp [List.length_take]; omega),
      List.getElem?_eq_none (by simp [List.length_take]; omega)]

/-- The loop never changes a part below its index. -/
theorem generateLoop_take (g : Generator) (randString : Nat → Int → List Char)
    (hasBadWord : List Char → Bool) :
    ∀ (fuel k i : Nat) (parts out : List (List Char)),
      generateLoop g randString hasBadWord fuel k i parts = some out →
      out.take i = parts.take i := by
  intro fuel
  induction fuel with
  | zero =>
    intro k i parts out h
    by_cases hi : (i : Int) < g.parts
    · simp [generateLoop, hi] at h
    · rw [generateLoop_exit _ _ _ _ _ _ _ hi] at h
      simp only [Option.some.injEq] at h
      rw [h]
  | succ fuel ih =>
    intro k i parts out h
    by_cases hi : (i : Int) < g.parts
    · rw [generateLoop, if_pos hi] at h
      dsimp only at h
      rcases hc : checkCharacter (randString k (g.partLen - 1)) ((i : Int) + 1) with _ | chk
      · rw [hc] at h; simp at h
      · rw [hc] at h
        simp only at h
        split at h
        · have h2 := congrArg (List.take i) (ih _ _ _ _ h)
          rw [List.take_take, List.take_take, Nat.min_eq_left (Nat.le_succ i),
            take_set_self] at h2
          exact h2
        · rw [ih _ _ _ _ h, take_set_self]
    · rw [generateLoop_exit _ _ _ _ _ _ _ hi] at h
      simp only [Option.some.injEq] at h
      rw [h]

theorem candidate_of_check (g : Generator) (randString : Nat → Int → List Char) (k i : Nat)
    (chk : List Char)
    (hc : checkCharacter (randString k (g.partLen - 1)) ((i : Int) + 1) = some chk) :
    candidate g randString k i = some (randString k (g.partLen - 1) ++ chk) := by
  unfold candidate
  rw [hc]; rfl

/-- The concatenation of all parts when the parts beyond index `i` are still empty. -/
theorem flatten_set_of_empty_tail (parts : List (List Char)) (i : Nat) (cand : List Char)
    (hi : i < parts.length)
    (hempty : ∀ m, i < m → m < parts.length → parts[m]? = some []) :
    (parts.set i cand).flatten = (parts.take i).flatten ++ cand := by
  rw [List.set_eq_take_append_cons_drop, if_pos hi, List.flatten_append, List.flatten_cons]
  have htail : (parts.drop (i + 1)).flatten = [] := by
    rw [List.flatten_eq_nil_iff]
    intro l hl
    obtain ⟨m, hm⟩ := List.getElem?_of_mem hl
    rw [List.getElem?_drop] at hm
    have hlt : i + 1 + m < parts.length := by
      by_contra hge
      rw [List.getElem?_eq_none (by omega)] at hm
      simp at hm
    rw [hempty (i + 1 + m) (by omega) hlt] at hm
    simp only [Option.some.injEq] at hm
    exact hm.symm
  rw [htail, List.append_nil]

theorem take_succ_set (parts : List (List Char)) (i : Nat) (cand : List Char)
    (hi : i < parts.length) :
    (parts.set i cand).take (i + 1) = parts.take i ++ [cand] := by
  rw [List.take_succ, take_set_self, List.getElem?_set_self hi]
  rfl

/-- The parts from the loop index on are placed by filter and retry. -/
theorem generateLoop_placed (g : Generator) (randString : Nat → Int → List Char)
    (hasBadWord : List Char → Bool) :
    ∀ (fuel k i : Nat) (parts out : List (List Char)), (parts.length : Int) = g.parts →
      (∀ m, i < m → m < parts.length → parts[m]? = some []) →
      generateLoop g randString hasBadWord fuel k i parts = some out →
      ∃ rest, out = parts.take i ++ rest ∧ i + rest.length = max i parts.length ∧
        PlacedFrom g randString hasBadWord k i (parts.take i) rest := by
  intro fuel
  have hexit : ∀ (k i : Nat) (parts : List (List Char)), (parts.length : Int) = g.parts →
      ¬ (i : Int) < g.parts →
      ∃ rest, parts = parts.take i ++ rest ∧ i + rest.length = max i parts.length ∧
        PlacedFrom g randString hasBadWord k i (parts.take i) rest := by
    intro k i parts hl hi
    refine ⟨[], ?_, ?_, trivial⟩
    · rw [List.append_nil, List.take_of_length_le (by omega)]
    · simp; omega
  induction fuel with
  | zero =>
    intro k i parts out hl hempty h
    by_cases hi : (i : Int) < g.parts
    · simp [generateLoop, hi] at h
    · rw [generateLoop_exit _ _ _ _ _ _ _ hi] at h
      simp only [Option.some.injEq] at h
      subst h
      exact hexit k i parts hl hi
  | succ fuel ih =>
    intro k i parts out hl hempty h
    by_cases hi : (i : Int) < g.parts
    · have hilt : i < parts.length := by omega
      rw [generateLoop, if_pos hi] at h
      dsimp only at h
      rcases hc : checkCharacter (randString k (g.partLen - 1)) ((i : Int) + 1) with _ | chk
      · rw [hc] at h; simp at h
      · rw [hc] at h
        simp only at h
        have hcand := candidate_of_check g randString k i chk hc
        have hjoin : Join (parts.set i (randString k (g.partLen - 1) ++ chk)) []
            = (parts.take i).flatten ++ (randString k (g.partLen - 1) ++ chk) := by
          rw [Join_nil_sep, flatten_set_of_empty_tail parts i _ hilt hempty]
        have hl2 : (((parts.set i (randString k (g.partLen - 1) ++ chk)).length : Nat) : Int)
            = g.parts := by rw [List.length_set]; exact hl
        have hempty2 : ∀ m, i < m →
            m < (parts.set i (randString k (g.partLen - 1) ++ chk)).length →
            (parts.set i (randString k (g.partLen - 1) ++ chk))[m]? = some [] := by
          intro m him hm
          rw [List.length_set] at hm
          rw [List.getElem?_set_ne (by omega)]
          exact hempty m him hm
        rw [hjoin] at h
        by_cases hbad : hasBadWord ((parts.take i).flatten ++
            (randString k (g.partLen - 1) ++ chk)) = true
        · -- rejected: the index stays
          rw [if_neg (by simp [hbad])] at h
          obtain ⟨rest, hout, hlen, hplaced⟩ := ih (k + 1) i _ out hl2 hempty2 h
          rw [take_set_self] at hout hplaced
          rw [List.length_set] at hlen
          refine ⟨rest, hout, hlen, ?_⟩
          cases rest with
          | nil => trivial
          | cons seg rest =>
            obtain ⟨ka, hka, hseg, hok, hrej, hnext⟩ := hplaced
            refine ⟨ka, by omega, hseg, hok, ?_, hnext⟩
            intro kr hkr1 hkr2
            by_cases hkk : kr = k
            · rw [hkk]
              exact ⟨_, hcand, hbad⟩
            · exact hrej kr (by omega) hkr2
        · -- accepted: the index advances
          rw [if_pos (by simpa using hbad)] at h
          obtain ⟨rest, hout, hlen, hplaced⟩ := ih (k + 1) (i + 1) _ out hl2
            (fun m him hm => hempty2 m (by omega) hm) h
          rw [take_succ_set parts i _ hilt] at hout hplaced
          rw [List.length_set] at hlen
          refine ⟨(randString k (g.partLen - 1) ++ chk) :: rest, ?_, ?_, ?_⟩
          · rw [hout]; simp
          · simp only [List.length_cons]; omega
          · exact ⟨k, le_refl k, hcand, by simpa using hbad, fun kr h1 h2 => by omega, hplaced⟩
    · rw [generateLoop_exit _ _ _ _ _ _ _ hi] at h
      simp only [Option.some.injEq] at h
      subst h
      exact hexit k i parts hl hi

theorem generateLoop_fuel (g : Generator) (randString : Nat → Int → List Char)
    (hasBadWord : List Char → Bool) (hno : ∀ str, hasBadWord str = false)
    (hret : ∀ i : Nat, (i : Int) < g.parts → candidate g randString i i ≠ none) :
    ∀ (fuel i : Nat) (parts : List (List Char)), (parts.length : Int) = g.parts →
      (fuel + i < parts.length →
        generateLoop g randString hasBadWord fuel i i parts = none) ∧
      (parts.length ≤ fuel + i →
        ∃ out, generateLoop g randString hasBadWord fuel i i parts = some out) := by
  intro fuel
  induction fuel with
  | zero =>
    intro i parts hl
    refine ⟨?_, ?_⟩
    · intro h
      simp only [generateLoop]
      rw [if_pos (by omega)]
    · intro h
      exact ⟨parts, generateLoop_exit _ _ _ _ _ _ _ (by omega)⟩
  | succ fuel ih =>
    intro i parts hl
    by_cases hi : (i : Int) < g.parts
    · have hcand := hret i hi
      unfold candidate at hcand
      rcases hc : checkCharacter (randString i (g.partLen - 1)) ((i : Int) + 1) with _ | chk
      · rw [hc] at hcand; simp at hcand
      · have hstep : generateLoop g randString hasBadWord (fuel + 1) i i parts
            = generateLoop g randString hasBadWord fuel (i + 1) (i + 1)
              (parts.set i (randString i (g.partLen - 1) ++ chk)) := by
          rw [generateLoop, if_pos hi]
          dsimp only
          rw [hc]
          simp only
          rw [hno, if_pos (by simp)]
        rw [hstep]
        obtain ⟨h1, h2⟩ := ih (i + 1) (parts.set i (randString i (g.partLen - 1) ++ chk))
          (by rw [List.length_set]; exact hl)
        rw [List.length_set] at h1 h2
        exact ⟨fun h => h1 (by omega), fun h => h2 (by omega)⟩
    · refine ⟨fun h => by omega, fun _ => ⟨parts, generateLoop_exit _ _ _ _ _ _ _ hi⟩⟩

theorem placedFrom_no_filter (g : Generator) (randString : Nat → Int → List Char)
    (hasBadWord : List Char → Bool) (hno : ∀ str, hasBadWord str = false) :
    ∀ (rest : List (List Char)) (k i : Nat) (accepted : List (List Char)),
      PlacedFrom g randString hasBadWord k i accepted rest →
      ∀ m, m < rest.length → rest[m]? = candidate g randString (k + m) (i + m) := by
  intro rest
  induction rest with
  | nil => intro k i accepted _ m hm; simp at hm
  | cons seg rest ih =>
    intro k i accepted h m hm
    obtain ⟨ka, hka, hseg, _, hrej, hnext⟩ := h
    have hkk : ka = k := by
      by_contra hne
      obtain ⟨rejected, _, hbad⟩ := hrej k (le_refl k) (by omega)
      rw [hno] at hbad
      exact absurd hbad (by decide)
    subst hkk
    cases m with
    | zero => simpa using hseg.symm
    | succ m =>
      have := ih (ka + 1) (i + 1) _ hnext m (by simpa using hm)
      rw [List.getElem?_cons_succ, this]
      congr 1 <;> omega

theorem generateParts_placed (g : Generator) (randString : Nat → Int → List Char)
    (hasBadWord : List Char → Bool) (fuel : Nat) (segs : List (List Char))
    (h : generateParts g randString hasBadWord fuel = some segs) :
    (segs.length : Int) = g.parts ∧ PlacedFrom g randString hasBadWord 0 0 [] segs := by
  unfold generateParts at h
  split at h
  · simp at h
  · rename_i hneg
    obtain ⟨rest, hout, hlen, hplaced⟩ := generateLoop_placed g randString hasBadWord fuel 0 0
      (List.replicate g.parts.toNat []) segs (by simp; omega)
      (fun m _ hm => by
        rw [List.length_replicate] at hm
        rw [List.getElem?_replicate, if_pos hm]) h
    simp only [List.take_zero, List.nil_append] at hout hplaced
    rw [List.length_replicate] at hlen
    subst hout
    refine ⟨by omega, hplaced⟩

/-- C17. Filter and retry: a code returned by `Generate` is the join of `parts`
segments placed in order, where the segment at index i is the candidate (drawn body
plus check character for position i+1) of the first draw after the one accepted for
index i-1 for which the blacklist accepts the accepted segments followed by the
candidate; the draws before it were rejected candidates for the same index, and the
loop never changes a part below its index.  With an empty blacklist, and when every
check character can be computed, `Generate` returns when it is allowed `parts` draws and
not with fewer, and segment i is the candidate of draw i. -/
theorem Generate_filter_retry (g : Generator) (randString : Nat → Int → List Char)
    (hasBadWord : List Char → Bool) :
    (∀ (fuel : Nat) (c : List Char), Generate g randString hasBadWord fuel = some c →
      ∃ segs, generateParts g randString hasBadWord fuel = some segs ∧
        c = Join segs separator ∧ (segs.length : Int) = g.parts ∧
        PlacedFrom g randString hasBadWord 0 0 [] segs) ∧
      (∀ (fuel k i : Nat) (parts out : List (List Char)),
        generateLoop g randString hasBadWord fuel k i parts = some out →
        out.take i = parts.take i) ∧
      ((∀ str, hasBadWord str = false) → 0 ≤ g.parts →
        (∀ i : Nat, (i : Int) < g.parts → candidate g randString i i ≠ none) →
        (∀ fuel, fuel < g.parts.toNat → Generate g randString hasBadWord fuel = none) ∧
        ∀ fuel, g.parts.toNat ≤ fuel →
          ∃ segs, Generate g randString hasBadWord fuel = some (Join segs separator) ∧
            segs.length = g.parts.toNat ∧
            ∀ i, i < g.parts.toNat → segs[i]? = candidate g randString i i) ∧
      (RandAlphabet randString → 1 ≤ g.partLen → g.partLen ≤ 13 → g.parts ≤ 1000 →
        ∀ k i : Nat, (i : Int) < g.parts → candidate g randString k i ≠ none) := by
  refine ⟨?_, generateLoop_take g randString hasBadWord, ?_, ?_⟩
  · intro fuel c h
    unfold Generate at h
    obtain ⟨segs, hsegs, rfl⟩ := Option.map_eq_some'.mp h
    obtain ⟨hlen, hplaced⟩ := generateParts_placed g randString hasBadWord fuel segs hsegs
    exact ⟨segs, hsegs, rfl, hlen, hplaced⟩
  · intro hno hparts hret
    have hloop := fun fuel => generateLoop_fuel g randString hasBadWord hno hret fuel 0
      (List.replicate g.parts.toNat []) (by simp; omega)
    refine ⟨?_, ?_⟩
    · intro fuel hfuel
      unfold Generate generateParts
      rw [if_neg (by omega), (hloop fuel).1 (by simp; omega)]
      rfl
    · intro fuel hfuel
      obtain ⟨segs, hsegs⟩ := (hloop fuel).2 (by simp; omega)
      have hgp : generateParts g randString hasBadWord fuel = some segs := by
        unfold generateParts
        rw [if_neg (by omega)]
        exact hsegs
      obtain ⟨hlen, hplaced⟩ := generateParts_placed g randString hasBadWord fuel segs hgp
      refine ⟨segs, ?_, by omega, ?_⟩
      · unfold Generate
        rw [hgp]; rfl
      · intro i hi
        have := placedFrom_no_filter g randString hasBadWord hno segs 0 0 [] hplaced i
          (by omega)
        simpa using this
  · intro hrand hp h13 hparts k i hi
    obtain ⟨hrl, hrs⟩ := hrand k (g.partLen - 1) (by omega)
    unfold candidate
    intro hnone
    rcases hc : checkCharacter (randString k (g.partLen - 1)) ((i : Int) + 1) with _ | chk
    · exact checkCharacter_ne_none_of_small _ _ hrs (by omega) (by omega) (by omega) hc
    · rw [hc] at hnone; simp at hnone

set_option maxRecDepth 100000 in
/-- A concrete run: draw 0 gives `0008`, which the blacklist rejects; draw 1 gives
`111H` for index 0 and draw 2 gives `2223` for index 1. -/
theorem Generate_filter_retry_witness :
    Generate Default repeatRand leadingZero 3 = some "111H-2223".toList ∧
      candidate Default repeatRand 0 0 = some "0008".toList ∧
      leadingZero "0008".toList = true ∧
      candidate Default repeatRand 1 0 = some "111H".toList ∧
      candidate Default repeatRand 2 1 = some "2223".toList ∧
      ∃ segs, generateParts Default repeatRand leadingZero 3 = some segs ∧
        "111H-2223".toList = Join segs separator ∧ (segs.length : Int) = Default.parts ∧
        PlacedFrom Default repeatRand leadingZero 0 0 [] segs :=
  ⟨by rfl, by rfl, by rfl, by rfl, by rfl,
    (Generate_filter_retry Default repeatRand leadingZero).1 3 "111H-2223".toList (by rfl)⟩

end Couponcode
